import Mathlib

/-!
Shallow embedding of the academic-searcher merge/dedupe/ranking core
(src/src/app_utils.py, src/src/search_sources.py, src/app.py), together
with theorems settling the frozen claims about it.

Modelling conventions:
* Python strings are Lean `String`s; Python's `\s` whitespace class is
  modelled over its ASCII range, and string comparison is code-point
  lexicographic, as in Python.
* Python floats are modelled by exact arithmetic: `ℚ` where the code only
  compares and divides (Jaccard similarity, thresholds, durations), `ℝ`
  where the code applies `math.log10` (relevance scoring).
* Rows are modelled after the canonical normalized record shape produced by
  the source adapters: text fields are strings (empty when missing), `Year`
  an optional integer, `Cites` an integer, `OA` a boolean.  On such typed
  values `normalize_int` and `normalize_year` act as the identity, so they
  are inlined where the code calls them.
* Python `set`s of strings are modelled as duplicate-free lists in
  encounter order; `sorted(...)` is a stable insertion sort under the
  code-point order, and `len(...)` is list length.
-/

namespace AcademicSearch

/-- Characters matched by Python's regex class `\s` (ASCII range). -/
def pySpace (c : Char) : Bool :=
  c = ' ' || c = '\t' || c = '\n' || c = '\r' || c = '\x0b' || c = '\x0c'

/-- Split a character list at every separator position, keeping empty
pieces, as Python's `str.split(sep)` does for a one-character separator.
The result always has exactly one more piece than separator occurrences. -/
def splitBy (p : Char → Bool) : List Char → List (List Char)
  | [] => [[]]
  | c :: cs =>
    match splitBy p cs with
    | [] => [[]]
    | h :: t => if p c then [] :: h :: t else (c :: h) :: t

/-- The maximal non-empty runs of non-whitespace characters, as Python's
argument-less `str.split()`. -/
def pyWords (cs : List Char) : List (List Char) :=
  (splitBy pySpace cs).filter (· ≠ [])

/-- Python's `sep.join(...)` at the character level. -/
def joinSep (sep : List Char) : List (List Char) → List Char
  | [] => []
  | [w] => w
  | w :: ws => w ++ sep ++ joinSep sep ws

/-- `clean_text` (src/src/app_utils.py): collapse every whitespace run to a
single space and strip the ends.  `None` inputs become `""` upstream, so the
model works on strings. -/
def clean_text (s : String) : String :=
  String.mk (joinSep [' '] (pyWords s.data))

/-- Characters kept by the fingerprint substitution `[^a-z0-9 ]+ -> " "`. -/
def fpKeep (c : Char) : Bool :=
  ('a' ≤ c && c ≤ 'z') || ('0' ≤ c && c ≤ '9') || c = ' '

/-- The token list underlying `title_fingerprint`: clean, lowercase,
replace every character outside `[a-z0-9 ]` by a space, split on
whitespace, keep tokens longer than two characters. -/
def fingerprint_tokens (title : String) : List String :=
  let lowered := (clean_text title).data.map Char.toLower
  let subst := lowered.map fun c => if fpKeep c then c else ' '
  ((pyWords subst).filter fun w => 2 < w.length).map String.mk

/-- `title_fingerprint` (src/src/app_utils.py): the fingerprint tokens
joined with single spaces. -/
def title_fingerprint (title : String) : String :=
  String.mk (joinSep [' '] ((fingerprint_tokens title).map String.data))

/-- The token set `set(title_fingerprint(t).split())` used by the fuzzy
dedupe pass: fingerprint tokens are non-empty and space-free, so splitting
the fingerprint recovers exactly the token list. -/
def fingerprint_token_set (title : String) : Finset String :=
  (fingerprint_tokens title).toFinset

/-- Does `pat` start `cs`? (`str.startswith`, used to model `str.replace`). -/
def startsWith : List Char → List Char → Bool
  | [], _ => true
  | _ :: _, [] => false
  | p :: ps, c :: cs => p = c && startsWith ps cs

/-- Fuel-indexed model of Python's `str.replace` for a non-empty pattern:
scan left to right, replace each non-overlapping occurrence.  Every step
consumes at least one character, so fuel equal to the scanned length never
runs out. -/
def replaceFuel (pat repl : List Char) : Nat → List Char → List Char
  | 0, cs => cs
  | Nat.succ fuel, cs =>
    match cs with
    | [] => []
    | c :: rest =>
      if startsWith pat cs && !pat.isEmpty then
        repl ++ replaceFuel pat repl fuel (List.drop pat.length cs)
      else c :: replaceFuel pat repl fuel rest

/-- Python `s.replace(pat, repl)` for the non-empty literal patterns the
code uses. -/
def py_replace (s pat repl : String) : String :=
  String.mk (replaceFuel pat.data repl.data s.data.length s.data)

/-- `normalize_doi` (src/src/app_utils.py): clean, lowercase, and strip
every occurrence of the DOI-resolver prefixes. -/
def normalize_doi (value : String) : String :=
  let doi := String.mk ((clean_text value).data.map Char.toLower)
  if doi = "" then ""
  else py_replace (py_replace doi "https://doi.org/" "") "http://doi.org/" ""

/-- `jaccard_similarity` (src/src/app_utils.py) over token sets.  `mkRat`
is exact rational division of the two set sizes, standing in for Python's
float division (`jaccard_similarity_eq_div` restates it with `/`). -/
def jaccard_similarity (left_tokens right_tokens : Finset String) : ℚ :=
  if left_tokens ∪ right_tokens = ∅ then 0
  else mkRat ((left_tokens ∩ right_tokens).card) ((left_tokens ∪ right_tokens).card)

/-- Code-point lexicographic order on character lists: Python's `<` on
strings. -/
def charsLt : List Char → List Char → Bool
  | [], [] => false
  | [], _ :: _ => true
  | _ :: _, [] => false
  | a :: as, b :: bs => a < b || (a = b && charsLt as bs)

/-- Python string `<`. -/
def pyStrLt (a b : String) : Bool := charsLt a.data b.data

/-- Stable insertion: place `a` after every element that strictly precedes
it, before the first that does not. -/
def stableInsert (precedes : α → α → Bool) (a : α) : List α → List α
  | [] => [a]
  | b :: l => if precedes b a then b :: stableInsert precedes a l else a :: b :: l

/-- Stable sort by a strict "comes before" predicate.  Stable sorts agree
on their output, so this models both Python's Timsort (`list.sort`,
`sorted`) and pandas' `kind="mergesort"`. -/
def stableSort (precedes : α → α → Bool) : List α → List α
  | [] => []
  | a :: l => stableInsert precedes a (stableSort precedes l)

/-- Add a tag to a modelled string set (no-op when already present). -/
def addTag (tags : List String) (t : String) : List String :=
  if t ∈ tags then tags else tags ++ [t]

/-- Union of two modelled string sets. -/
def tagUnion (a b : List String) : List String := b.foldl addTag a

/-- Python `" | ".join(sorted(source_set))`. -/
def joined_sources (tags : List String) : String :=
  String.mk (joinSep [' ', '|', ' '] ((stableSort pyStrLt tags).map String.data))

/-- The source-tag set harvested from a `Source` string:
`{clean_text(x) for x in clean_text(s).split("|") if clean_text(x)}`. -/
def source_token_set (s : String) : List String :=
  (((splitBy (· = '|') (clean_text s).data).map fun piece =>
      clean_text (String.mk piece)).filter (· ≠ "")).foldl addTag []

/-- A normalized result row, typed after the canonical record shape that
the source adapters emit (missing text fields are `""`, missing years
`none`).  `SourceCount` starts at 1 and is recomputed by the merge logic. -/
structure Row where
  Source : String := ""
  Title : String := ""
  Authors : String := ""
  Year : Option Int := none
  Venue : String := ""
  URL : String := ""
  PDF : String := ""
  DOI : String := ""
  Cites : Int := 0
  Abstract : String := ""
  OA : Bool := false
  SourceCount : Nat := 1
deriving DecidableEq, Repr

/-- The per-field text rule of `merge_result_rows`: take the incoming value
exactly when the current one cleans to empty and the incoming one does not. -/
def merge_text (cur inc : String) : String :=
  if clean_text cur = "" ∧ clean_text inc ≠ "" then inc else cur

/-- `merge_result_rows` (src/src/app_utils.py).  The Python function
mutates `current` field by field; the fields are independent, so the update
is a single functional record update.  `normalize_int` / `normalize_year`
are identities on the typed `Cites` / `Year` fields. -/
def merge_result_rows (current incoming : Row) : Row :=
  let sset := tagUnion (source_token_set current.Source) (source_token_set incoming.Source)
  { current with
    Title := merge_text current.Title incoming.Title,
    Authors := merge_text current.Authors incoming.Authors,
    Venue := merge_text current.Venue incoming.Venue,
    URL := merge_text current.URL incoming.URL,
    PDF := merge_text current.PDF incoming.PDF,
    DOI := merge_text current.DOI incoming.DOI,
    Cites := max current.Cites incoming.Cites,
    Year := match current.Year, incoming.Year with
      | none, iy => iy
      | some cy, none => some cy
      | some cy, some iy => some (max cy iy),
    OA := current.OA || incoming.OA,
    Abstract := if (clean_text current.Abstract).length < (clean_text incoming.Abstract).length
      then clean_text incoming.Abstract else current.Abstract,
    Source := if sset ≠ [] then joined_sources sset
      else if clean_text current.Source ≠ "" then clean_text current.Source else "Unknown",
    SourceCount := if sset ≠ [] then sset.length else 1 }

/-- An in-progress merged record of `deduplicate_results`: the row being
accumulated, the `_source_set` bookkeeping, and — as ghost bookkeeping not
present in the source, used only to state provenance properties — the list
of input rows that have been merged into it. -/
structure DedupItem where
  row : Row
  sourceSet : List String
  contributors : List Row
deriving DecidableEq, Repr

/-- The dedupe key of the exact pass: normalized DOI, else title
fingerprint, else a per-index fallback. -/
def dedup_key (row : Row) (index : Nat) : String :=
  let doi := normalize_doi row.DOI
  if doi ≠ "" then doi
  else
    let title_key := title_fingerprint row.Title
    if title_key ≠ "" then title_key else "row-" ++ toString index

/-- `{clean_text(source)}` if non-empty, else the empty set. -/
def row_source_tag (row : Row) : List String :=
  if clean_text row.Source ≠ "" then [clean_text row.Source] else []

/-- A fresh merged item for a first-seen key (`dict(row)` plus the
normalizing assignments of the exact pass, which are identities here). -/
def new_item (row : Row) : DedupItem :=
  { row := row, sourceSet := row_source_tag row, contributors := [row] }

/-- Merging one more input row into an existing item: add its source tag to
`_source_set`, then `merge_result_rows`. -/
def merge_into (row : Row) (it : DedupItem) : DedupItem :=
  { row := merge_result_rows it.row row,
    sourceSet := tagUnion it.sourceSet (row_source_tag row),
    contributors := it.contributors ++ [row] }

/-- `key in merged` for the insertion-ordered dict model. -/
def has_key (k : String) : List (String × DedupItem) → Bool
  | [] => false
  | (k₀, _) :: rest => k₀ = k || has_key k rest

/-- Update the entry at a key in place (Python dict mutation). -/
def update_assoc (k : String) (f : DedupItem → DedupItem) :
    List (String × DedupItem) → List (String × DedupItem)
  | [] => []
  | (k₀, it) :: rest =>
    if k₀ = k then (k₀, f it) :: rest else (k₀, it) :: update_assoc k f rest

/-- One iteration of the exact-pass loop body. -/
def exact_step (m : List (String × DedupItem)) (index : Nat) (row : Row) :
    List (String × DedupItem) :=
  let key := dedup_key row index
  if has_key key m then update_assoc key (merge_into row) m
  else m ++ [(key, new_item row)]

/-- The exact pass of `deduplicate_results`: fold the enumerated input into
an insertion-ordered keyed map. -/
def exact_pass_from (index : Nat) (m : List (String × DedupItem)) :
    List Row → List (String × DedupItem)
  | [] => m
  | row :: rest => exact_pass_from (index + 1) (exact_step m index row) rest

def exact_pass (results : List Row) : List (String × DedupItem) :=
  exact_pass_from 0 [] results

/-- The output normalization after the exact pass: pop `_source_set` and
write the canonical `Source` / `SourceCount`. -/
def finalize_item (it : DedupItem) : DedupItem :=
  let sources := stableSort pyStrLt it.sourceSet
  if sources ≠ [] then
    { it with row := { it.row with
        Source := String.mk (joinSep [' ', '|', ' '] (sources.map String.data)),
        SourceCount := sources.length } }
  else
    { it with row := { it.row with
        Source := if clean_text it.row.Source ≠ "" then clean_text it.row.Source else "Unknown",
        SourceCount := 1 } }

/-- The merge decision of the fuzzy pass (src/src/app_utils.py lines
297-306): equal non-empty DOIs merge; two DOI-less records merge when the
Jaccard similarity of their fingerprint token sets reaches the threshold;
everything else does not merge. -/
def fuzzy_should_merge (row_doi existing_doi : String)
    (row_tokens existing_tokens : Finset String) (thr : ℚ) : Bool :=
  if row_doi ≠ "" ∧ existing_doi ≠ "" ∧ row_doi = existing_doi then true
  else if row_doi = "" ∧ existing_doi = "" then
    decide (thr ≤ jaccard_similarity row_tokens existing_tokens)
  else false

/-- Scan the refined list in order; merge into the first match, else append
at the end. -/
def fuzzy_insert (row_doi : String) (row_tokens : Finset String) (thr : ℚ)
    (rc : DedupItem) : List DedupItem → List DedupItem
  | [] => [rc]
  | existing :: rest =>
    if fuzzy_should_merge row_doi (normalize_doi existing.row.DOI) row_tokens
        (fingerprint_token_set existing.row.Title) thr then
      { row := merge_result_rows existing.row rc.row,
        sourceSet := existing.sourceSet,
        contributors := existing.contributors ++ rc.contributors } :: rest
    else existing :: fuzzy_insert row_doi row_tokens thr rc rest

/-- The fuzzy pass: re-scan the exact-pass output in order. -/
def fuzzy_pass (thr : ℚ) (refined : List DedupItem) : List DedupItem → List DedupItem
  | [] => refined
  | rc :: rest =>
    fuzzy_pass thr
      (fuzzy_insert (normalize_doi rc.row.DOI) (fingerprint_token_set rc.row.Title) thr rc refined)
      rest

/-- `deduplicate_results` at the instrumented item level. -/
def deduplicate_items (results : List Row) (fuzzy_title : Bool) (fuzzy_threshold : ℚ) :
    List DedupItem :=
  let output := (exact_pass results).map fun p => finalize_item p.2
  if fuzzy_title then fuzzy_pass fuzzy_threshold [] output else output

/-- `deduplicate_results` (src/src/app_utils.py). -/
def deduplicate_results (results : List Row) (fuzzy_title : Bool) (fuzzy_threshold : ℚ) :
    List Row :=
  (deduplicate_items results fuzzy_title fuzzy_threshold).map DedupItem.row

/-! ### Relevance scoring (src/src/app_utils.py, `compute_relevance_score`) -/

/-- Characters matched by the query tokenizer's class `[a-z0-9]`. -/
def alnumLower (c : Char) : Bool :=
  ('a' ≤ c && c ≤ 'z') || ('0' ≤ c && c ≤ '9')

/-- `re.findall(r"[a-z0-9]+", query.lower())` filtered to tokens of length
greater than two: maximal alphanumeric runs of the lowercased query. -/
def query_tokens (query : String) : List String :=
  ((((splitBy fun c => !alnumLower c) (query.data.map Char.toLower)).filter
      (· ≠ [])).map String.mk).filter fun t => 2 < t.length

/-- Python's `in` on strings: does `needle` occur contiguously in
`haystack`? -/
def str_contains (needle haystack : List Char) : Bool :=
  match haystack with
  | [] => needle.isEmpty
  | _ :: rest => startsWith needle haystack || str_contains needle rest

/-- The lowercased concatenation of cleaned title and abstract that query
tokens are searched in. -/
def searchable_text (row : Row) : String :=
  String.mk ((clean_text row.Title ++ " " ++ clean_text row.Abstract).data.map Char.toLower)

/-- `datetime.now().year` frozen at specification time. -/
def CURRENT_YEAR : Int := 2026

/-- The weight-normalization step of `compute_relevance_score`: fall back
to the default triple when the supplied sum is not positive, else divide
each weight by the sum. -/
noncomputable def normalized_weights (w : ℝ × ℝ × ℝ) : ℝ × ℝ × ℝ :=
  let total := w.1 + w.2.1 + w.2.2
  if total ≤ 0 then (0.55, 0.25, 0.20)
  else (w.1 / total, w.2.1 / total, w.2.2 / total)

/-- `compute_relevance_score` (src/src/app_utils.py), over `ℝ` because of
`math.log10`.  `weights=None` means the default triple. -/
noncomputable def compute_relevance_score (query : String) (row : Row)
    (weights : Option (ℝ × ℝ × ℝ)) : ℝ :=
  let tokens := query_tokens query
  let token_score : ℝ :=
    if tokens = [] then 0
    else ((tokens.countP fun t => str_contains t.data (searchable_text row).data : ℕ) : ℝ) /
      (tokens.length : ℝ)
  let citation_score : ℝ := min (Real.logb 10 ((row.Cites : ℝ) + 1) / 3) 1
  let recency_score : ℝ :=
    match row.Year with
    | none => 0.3
    | some year => max 0 (1 - ((CURRENT_YEAR : ℝ) - (year : ℝ)) / 20)
  let w := normalized_weights (weights.getD (0.55, 0.25, 0.20))
  let oa_bonus : ℝ := if row.OA then 0.08 else 0
  token_score * w.1 + citation_score * w.2.1 + recency_score * w.2.2 + oa_bonus

/-- Python `round(x, 4)`, as rounding of `x * 10⁴` to an integer.  (Python
rounds exact halves to even; the two conventions agree away from exact
midpoints, and every claim here evaluates away from midpoints.) -/
noncomputable def round4 (x : ℝ) : ℝ := ((round (x * 10000) : ℤ) : ℝ) / 10000

/-- The `Score` column computed by `prepare_dataframe` (src/src/app_utils.py
line 463-466): the relevance score rounded to four decimals. -/
noncomputable def prepared_score (query : String) (row : Row)
    (weights : Option (ℝ × ℝ × ℝ)) : ℝ :=
  round4 (compute_relevance_score query row weights)

/-! ### Sorting (src/app.py, `apply_sort`)

A row of the prepared dataframe: a record together with its `Score`
column.  Pandas' `kind="mergesort"` is a stable sort, and stable sorts
agree on their output, so `apply_sort` is modelled with `stableSort`.
For the year modes, `na_position="last"` places missing years after every
present year; among missing-year rows the remaining key applies. -/

structure ScoredRow where
  r : Row
  Score : ℚ
deriving DecidableEq, Repr

/-- `["Score", "Cites"]`, both descending. -/
def rel_precedes (a b : ScoredRow) : Bool :=
  decide (b.Score < a.Score) || (decide (a.Score = b.Score) && decide (b.r.Cites < a.r.Cites))

/-- `["Cites", "Score"]`, both descending. -/
def cited_precedes (a b : ScoredRow) : Bool :=
  decide (b.r.Cites < a.r.Cites) ||
    (decide (a.r.Cites = b.r.Cites) && decide (b.Score < a.Score))

/-- `["Year", "Score"]` descending, missing year last. -/
def newest_precedes (a b : ScoredRow) : Bool :=
  match a.r.Year, b.r.Year with
  | some ya, some yb => decide (yb < ya) || (decide (ya = yb) && decide (b.Score < a.Score))
  | some _, none => true
  | none, some _ => false
  | none, none => decide (b.Score < a.Score)

/-- `["Year", "Score"]`, year ascending, score descending, missing year
last. -/
def oldest_precedes (a b : ScoredRow) : Bool :=
  match a.r.Year, b.r.Year with
  | some ya, some yb => decide (ya < yb) || (decide (ya = yb) && decide (b.Score < a.Score))
  | some _, none => true
  | none, some _ => false
  | none, none => decide (b.Score < a.Score)

/-- `["Title"]` ascending. -/
def title_precedes (a b : ScoredRow) : Bool := pyStrLt a.r.Title b.r.Title

/-- `apply_sort` (src/app.py lines 48-57). -/
def apply_sort (df : List ScoredRow) (mode : String) : List ScoredRow :=
  if mode = "Relevance score" then stableSort rel_precedes df
  else if mode = "Most cited" then stableSort cited_precedes df
  else if mode = "Newest first" then stableSort newest_precedes df
  else if mode = "Oldest first" then stableSort oldest_precedes df
  else stableSort title_precedes df

/-! ### Fetch orchestration (src/src/search_sources.py, `search_all_sources`)

The per-source coroutine `run_source` always returns the four-tuple
`(source, rows, "", duration)`: every fetch failure (exception, timeout,
non-2xx response, or rate-limit exhaustion) is caught inside `make_request`
/ the per-source search function, which then returns an empty row list.
A `FetchOutcome` records which of the two cases the network produced; a
`TaskOutcome` additionally models the task itself raising, which the
orchestrator's `except` branch turns into an `"Unknown"` stat.  Completion
order of `asyncio.as_completed` is nondeterministic, so the orchestrator
core is stated over an arbitrary completion-ordered task list. -/

/-- What the network produced for one source. -/
inductive FetchOutcome where
  | failed
  | fetched (rows : List Row)
deriving DecidableEq, Repr

/-- The row list a per-source search function returns: empty when
`make_request` returned `None`. -/
def source_rows : FetchOutcome → List Row
  | .failed => []
  | .fetched rows => rows

/-- What awaiting one task produced. -/
inductive TaskOutcome where
  | ok (f : FetchOutcome) (duration : ℚ)
  | raised (msg : String)
deriving DecidableEq, Repr

/-- A per-source diagnostic record. -/
structure SourceStat where
  source : String
  result_count : Nat
  duration_sec : ℚ
  error : String
  status : String
deriving DecidableEq, Repr

/-- The stat entry the orchestrator appends for one awaited task. -/
def task_stat : String × TaskOutcome → SourceStat
  | (src, .ok f d) =>
    { source := src, result_count := (source_rows f).length, duration_sec := d,
      error := "", status := if ("" : String) ≠ "" then "Error" else "OK" }
  | (_, .raised msg) =>
    { source := "Unknown", result_count := 0, duration_sec := 0,
      error := msg, status := if msg ≠ "" then "Error" else "OK" }

/-- The rows one awaited task contributes to `all_results`. -/
def task_rows : String × TaskOutcome → List Row
  | (_, .ok f _) => source_rows f
  | (_, .raised _) => []

/-- The orchestrator loop over the tasks in completion order: concatenated
results, stats sorted by source tag, and the list of progress-callback
arguments (`completed/total` after each task; empty when no callback is
supplied). -/
def search_all_sources_tasks (tasks : List (String × TaskOutcome)) (progress : Bool) :
    List Row × List SourceStat × List ℚ :=
  if tasks.length = 0 then ([], [], [])
  else
    ((tasks.map task_rows).flatten,
     stableSort (fun a b => pyStrLt a.source b.source) (tasks.map task_stat),
     if progress then (List.range tasks.length).map fun i => mkRat (i + 1) tasks.length
     else [])

/-- `search_all_sources` for a selected source list and an environment
describing each source's task outcome (one representative completion
order; the stats are sorted deterministically regardless). -/
def search_all_sources (sources : List String) (env : String → TaskOutcome)
    (progress : Bool) : List Row × List SourceStat × List ℚ :=
  search_all_sources_tasks (sources.map fun s => (s, env s)) progress

/-! ### Generic facts about `stableSort` -/

theorem stableInsert_perm (p : α → α → Bool) (a : α) (l : List α) :
    List.Perm (stableInsert p a l) (a :: l) := by
  induction l with
  | nil => exact List.Perm.refl _
  | cons b l ih =>
    unfold stableInsert
    by_cases h : p b a = true
    · rw [if_pos h]
      exact (List.Perm.cons b ih).trans (List.Perm.swap a b l)
    · rw [if_neg h]

theorem stableSort_perm (p : α → α → Bool) (l : List α) :
    List.Perm (stableSort p l) l := by
  induction l with
  | nil => exact List.Perm.refl _
  | cons a l ih =>
    exact (stableInsert_perm p a (stableSort p l)).trans (List.Perm.cons a ih)

theorem mem_stableInsert {p : α → α → Bool} {a y : α} {l : List α} :
    y ∈ stableInsert p a l ↔ y = a ∨ y ∈ l := by
  rw [(stableInsert_perm p a l).mem_iff, List.mem_cons]

theorem mem_stableSort {p : α → α → Bool} {y : α} {l : List α} :
    y ∈ stableSort p l ↔ y ∈ l :=
  (stableSort_perm p l).mem_iff

theorem filter_stableInsert (p : α → α → Bool) (q : α → Bool) (a : α) (l : List α)
    (h : q a = true → ∀ b, q b = true → p b a = false) :
    (stableInsert p a l).filter q =
      if q a then a :: l.filter q else l.filter q := by
  induction l with
  | nil => cases hq : q a <;> simp [stableInsert, List.filter, hq]
  | cons b l ih =>
    unfold stableInsert
    by_cases hba : p b a = true
    · rw [if_pos hba]
      by_cases hqa : q a = true
      · have hqb : q b = false := by
          by_contra hqb
          have := h hqa b (by simpa using hqb)
          rw [this] at hba; exact Bool.false_ne_true hba
        rw [List.filter_cons_of_neg (by simp [hqb]), ih, List.filter_cons_of_neg (by simp [hqb])]
      · rw [if_neg hqa]
        cases hq : q b
        · rw [List.filter_cons_of_neg (by simp [hq]), List.filter_cons_of_neg (by simp [hq]),
            ih, if_neg hqa]
        · rw [List.filter_cons_of_pos (by simp [hq]), List.filter_cons_of_pos (by simp [hq]),
            ih, if_neg hqa]
    · rw [if_neg hba]
      by_cases hqa : q a = true
      · rw [if_pos hqa, List.filter_cons_of_pos (by simp [hqa])]
      · rw [if_neg hqa, List.filter_cons_of_neg (by simpa using hqa)]

theorem filter_stableSort (p : α → α → Bool) (q : α → Bool) (l : List α)
    (h : ∀ a b, q a = true → q b = true → p b a = false) :
    (stableSort p l).filter q = l.filter q := by
  induction l with
  | nil => rfl
  | cons a l ih =>
    unfold stableSort
    rw [filter_stableInsert p q a (stableSort p l) (fun hqa b hqb => h a b hqa hqb)]
    by_cases hqa : q a = true <;> simp [List.filter, hqa, ih]

theorem pairwise_stableInsert (p : α → α → Bool) (a : α) (l : List α)
    (asym : ∀ x y, p x y = true → p y x = false)
    (negtrans : ∀ x y z, p z x = true → p z y = true ∨ p y x = true)
    (hl : l.Pairwise fun x y => p y x = false) :
    (stableInsert p a l).Pairwise fun x y => p y x = false := by
  induction l with
  | nil => simp [stableInsert]
  | cons b l ih =>
    rw [List.pairwise_cons] at hl
    unfold stableInsert
    by_cases hba : p b a = true
    · rw [if_pos hba]
      refine List.Pairwise.cons ?_ (ih hl.2)
      intro y hy
      rcases mem_stableInsert.1 hy with rfl | hy
      · exact asym b y hba
      · exact hl.1 y hy
    · rw [if_neg hba]
      refine List.Pairwise.cons ?_ (List.Pairwise.cons hl.1 hl.2)
      intro y hy
      rcases List.mem_cons.1 hy with rfl | hy
      · exact Bool.eq_false_iff.2 hba
      · by_contra hya
        rcases negtrans a b y (by simpa using hya) with hyb | hba'
        · rw [hl.1 y hy] at hyb; exact Bool.false_ne_true hyb
        · rw [(by simpa using hba : p b a = false)] at hba'
          exact Bool.false_ne_true hba'

theorem pairwise_stableSort (p : α → α → Bool) (l : List α)
    (asym : ∀ x y, p x y = true → p y x = false)
    (negtrans : ∀ x y z, p z x = true → p z y = true ∨ p y x = true) :
    (stableSort p l).Pairwise fun x y => p y x = false := by
  induction l with
  | nil => simp [stableSort]
  | cons a l ih => exact pairwise_stableInsert p a _ asym negtrans ih

theorem sublist_flatten_of_mem {l : List α} {L : List (List α)} (h : l ∈ L) :
    l.Sublist L.flatten := by
  induction L with
  | nil => cases h
  | cons x L ih =>
    rcases List.mem_cons.1 h with rfl | h
    · simpa using List.sublist_append_left l L.flatten
    · simpa using (ih h).trans (List.sublist_append_right x L.flatten)

/-! ### Facts about `merge_text` and the merge rules -/

theorem merge_text_keep {cur inc : String} (h : clean_text cur ≠ "") :
    merge_text cur inc = cur := by
  unfold merge_text
  rw [if_neg]
  exact fun hc => h hc.1

theorem merge_text_take {cur inc : String} (h1 : clean_text cur = "")
    (h2 : clean_text inc ≠ "") : merge_text cur inc = inc := by
  unfold merge_text
  rw [if_pos ⟨h1, h2⟩]

theorem merge_result_rows_Title (c i : Row) :
    (merge_result_rows c i).Title = merge_text c.Title i.Title := rfl

theorem merge_result_rows_Authors (c i : Row) :
    (merge_result_rows c i).Authors = merge_text c.Authors i.Authors := rfl

theorem merge_result_rows_Venue (c i : Row) :
    (merge_result_rows c i).Venue = merge_text c.Venue i.Venue := rfl

theorem merge_result_rows_URL (c i : Row) :
    (merge_result_rows c i).URL = merge_text c.URL i.URL := rfl

theorem merge_result_rows_PDF (c i : Row) :
    (merge_result_rows c i).PDF = merge_text c.PDF i.PDF := rfl

theorem merge_result_rows_DOI (c i : Row) :
    (merge_result_rows c i).DOI = merge_text c.DOI i.DOI := rfl

theorem merge_result_rows_Abstract (c i : Row) :
    (merge_result_rows c i).Abstract =
      if (clean_text c.Abstract).length < (clean_text i.Abstract).length
      then clean_text i.Abstract else c.Abstract := rfl

theorem merge_result_rows_Year (c i : Row) :
    (merge_result_rows c i).Year =
      match c.Year, i.Year with
      | none, iy => iy
      | some cy, none => some cy
      | some cy, some iy => some (max cy iy) := rfl

/-! ### Claim theorems -/

/-- Claim C9: `jaccard_similarity` is total and bounded — it always
returns a value in `[0, 1]`, returns `0` on an empty union rather than
dividing by zero, and performs the size division exactly on non-empty
unions. -/
theorem C9_jaccard_total_and_bounded (A B : Finset String) :
    (0 ≤ jaccard_similarity A B ∧ jaccard_similarity A B ≤ 1) ∧
    (A ∪ B = ∅ → jaccard_similarity A B = 0) ∧
    (A ∪ B ≠ ∅ →
      jaccard_similarity A B = ((A ∩ B).card : ℚ) / ((A ∪ B).card : ℚ)) := by
  by_cases h : A ∪ B = ∅
  · refine ⟨⟨?_, ?_⟩, fun _ => ?_, fun hne => absurd h hne⟩ <;>
      simp [jaccard_similarity, h]
  · have hpos : 0 < (A ∪ B).card :=
      Finset.card_pos.2 (Finset.nonempty_iff_ne_empty.2 h)
    have hval : jaccard_similarity A B = ((A ∩ B).card : ℚ) / ((A ∪ B).card : ℚ) := by
      unfold jaccard_similarity
      rw [if_neg h, Rat.mkRat_eq_div]
      push_cast
      rfl
    refine ⟨⟨?_, ?_⟩, fun he => absurd he h, fun _ => hval⟩
    · rw [hval]; positivity
    · rw [hval, div_le_one (by exact_mod_cast hpos)]
      exact_mod_cast Finset.card_le_card Finset.inter_subset_union

/-- Witness for C9 at concrete token sets. -/
theorem C9_jaccard_total_and_bounded_witness :
    ({"a", "b"} ∪ {"a"} : Finset String) ≠ ∅ ∧
    jaccard_similarity {"a", "b"} {"a"} =
      (({"a", "b"} ∩ {"a"} : Finset String).card : ℚ) /
        (({"a", "b"} ∪ {"a"} : Finset String).card : ℚ) :=
  ⟨by decide, (C9_jaccard_total_and_bounded {"a", "b"} {"a"}).2.2 (by decide)⟩

/-- Claim C10: with an empty selected-source list, `search_all_sources`
returns two empty lists and never invokes the progress callback. -/
theorem C10_empty_sources (env : String → TaskOutcome) (progress : Bool) :
    search_all_sources [] env progress = ([], [], []) := rfl

/-- Claim C3: the field-by-field merge rules of `merge_result_rows` —
citations merge by `max`, open access by logical or, each text field keeps
the populated value and takes the incoming one only when the current one
is empty, the abstract becomes the strictly longer cleaned abstract, and
the year is the `max` of the present years. -/
theorem C3_merge_field_rules (current incoming : Row) :
    (merge_result_rows current incoming).Cites = max current.Cites incoming.Cites ∧
    (merge_result_rows current incoming).OA = (current.OA || incoming.OA) ∧
    ((clean_text current.Title ≠ "" →
        (merge_result_rows current incoming).Title = current.Title) ∧
      (clean_text current.Title = "" → clean_text incoming.Title ≠ "" →
        (merge_result_rows current incoming).Title = incoming.Title)) ∧
    ((clean_text current.Authors ≠ "" →
        (merge_result_rows current incoming).Authors = current.Authors) ∧
      (clean_text current.Authors = "" → clean_text incoming.Authors ≠ "" →
        (merge_result_rows current incoming).Authors = incoming.Authors)) ∧
    ((clean_text current.Venue ≠ "" →
        (merge_result_rows current incoming).Venue = current.Venue) ∧
      (clean_text current.Venue = "" → clean_text incoming.Venue ≠ "" →
        (merge_result_rows current incoming).Venue = incoming.Venue)) ∧
    ((clean_text current.URL ≠ "" →
        (merge_result_rows current incoming).URL = current.URL) ∧
      (clean_text current.URL = "" → clean_text incoming.URL ≠ "" →
        (merge_result_rows current incoming).URL = incoming.URL)) ∧
    ((clean_text current.PDF ≠ "" →
        (merge_result_rows current incoming).PDF = current.PDF) ∧
      (clean_text current.PDF = "" → clean_text incoming.PDF ≠ "" →
        (merge_result_rows current incoming).PDF = incoming.PDF)) ∧
    ((clean_text current.DOI ≠ "" →
        (merge_result_rows current incoming).DOI = current.DOI) ∧
      (clean_text current.DOI = "" → clean_text incoming.DOI ≠ "" →
        (merge_result_rows current incoming).DOI = incoming.DOI)) ∧
    (((clean_text current.Abstract).length < (clean_text incoming.Abstract).length →
        (merge_result_rows current incoming).Abstract = clean_text incoming.Abstract) ∧
      (¬ (clean_text current.Abstract).length < (clean_text incoming.Abstract).length →
        (merge_result_rows current incoming).Abstract = current.Abstract)) ∧
    ((current.Year = none → (merge_result_rows current incoming).Year = incoming.Year) ∧
      (∀ cy, current.Year = some cy → incoming.Year = none →
        (merge_result_rows current incoming).Year = some cy) ∧
      (∀ cy iy, current.Year = some cy → incoming.Year = some iy →
        (merge_result_rows current incoming).Year = some (max cy iy))) := by
  refine ⟨rfl, rfl, ?_, ?_, ?_, ?_, ?_, ?_, ?_, ?_⟩
  · exact ⟨fun h => (merge_result_rows_Title _ _).trans (merge_text_keep h),
      fun h1 h2 => (merge_result_rows_Title _ _).trans (merge_text_take h1 h2)⟩
  · exact ⟨fun h => (merge_result_rows_Authors _ _).trans (merge_text_keep h),
      fun h1 h2 => (merge_result_rows_Authors _ _).trans (merge_text_take h1 h2)⟩
  · exact ⟨fun h => (merge_result_rows_Venue _ _).trans (merge_text_keep h),
      fun h1 h2 => (merge_result_rows_Venue _ _).trans (merge_text_take h1 h2)⟩
  · exact ⟨fun h => (merge_result_rows_URL _ _).trans (merge_text_keep h),
      fun h1 h2 => (merge_result_rows_URL _ _).trans (merge_text_take h1 h2)⟩
  · exact ⟨fun h => (merge_result_rows_PDF _ _).trans (merge_text_keep h),
      fun h1 h2 => (merge_result_rows_PDF _ _).trans (merge_text_take h1 h2)⟩
  · exact ⟨fun h => (merge_result_rows_DOI _ _).trans (merge_text_keep h),
      fun h1 h2 => (merge_result_rows_DOI _ _).trans (merge_text_take h1 h2)⟩
  · exact ⟨fun h => (merge_result_rows_Abstract _ _).trans (if_pos h),
      fun h => (merge_result_rows_Abstract _ _).trans (if_neg h)⟩
  · refine ⟨fun h => ?_, fun cy hc hi => ?_, fun cy iy hc hi => ?_⟩ <;>
      rw [merge_result_rows_Year] <;> simp_all

/-- Witness for C3 at fully populated concrete rows. -/
theorem C3_merge_field_rules_witness :
    (merge_result_rows
        { Title := "Kept", Cites := 5, Abstract := "short", Year := some 2020 }
        { Title := "Other", Cites := 12, Abstract := "a longer abstract",
          Year := some 2018, OA := true }).Cites = 12 ∧
    (merge_result_rows
        { Title := "Kept", Cites := 5, Abstract := "short", Year := some 2020 }
        { Title := "Other", Cites := 12, Abstract := "a longer abstract",
          Year := some 2018, OA := true }).Title = "Kept" ∧
    (merge_result_rows
        { Title := "Kept", Cites := 5, Abstract := "short", Year := some 2020 }
        { Title := "Other", Cites := 12, Abstract := "a longer abstract",
          Year := some 2018, OA := true }).Abstract = "a longer abstract" ∧
    (merge_result_rows
        { Title := "Kept", Cites := 5, Abstract := "short", Year := some 2020 }
        { Title := "Other", Cites := 12, Abstract := "a longer abstract",
          Year := some 2018, OA := true }).Year = some 2020 := by
  obtain ⟨h1, h2, h3, _, _, _, _, _, h9, h10⟩ :=
    C3_merge_field_rules
      { Title := "Kept", Cites := 5, Abstract := "short", Year := some 2020 }
      { Title := "Other", Cites := 12, Abstract := "a longer abstract",
        Year := some 2018, OA := true }
  refine ⟨?_, ?_, ?_, ?_⟩
  · rw [h1]; decide
  · exact h3.1 (by decide)
  · exact (h9.1 (by decide)).trans (by decide)
  · exact (h10.2.2 2020 2018 rfl rfl).trans (by decide)

/-- Claim C7: `compute_relevance_score` renormalizes a positive-sum weight
triple to sum to 1, falls back to the default triple on a non-positive
sum, and is therefore invariant under scaling all three weights by one
positive constant. -/
theorem C7_weight_renormalization (wt wc wr : ℝ) :
    (0 < wt + wc + wr →
      normalized_weights (wt, wc, wr) =
        (wt / (wt + wc + wr), wc / (wt + wc + wr), wr / (wt + wc + wr)) ∧
      (normalized_weights (wt, wc, wr)).1 + (normalized_weights (wt, wc, wr)).2.1 +
        (normalized_weights (wt, wc, wr)).2.2 = 1) ∧
    (wt + wc + wr ≤ 0 → normalized_weights (wt, wc, wr) = (0.55, 0.25, 0.20)) ∧
    (∀ k : ℝ, 0 < k → ∀ (query : String) (row : Row),
      compute_relevance_score query row (some (k * wt, k * wc, k * wr)) =
        compute_relevance_score query row (some (wt, wc, wr))) := by
  have hnw : ∀ a b c : ℝ, normalized_weights (a, b, c) =
      if a + b + c ≤ 0 then (0.55, 0.25, 0.20)
      else (a / (a + b + c), b / (a + b + c), c / (a + b + c)) := fun _ _ _ => rfl
  refine ⟨fun hpos => ?_, fun hneg => ?_, fun k hk query row => ?_⟩
  · rw [hnw, if_neg (not_le.2 hpos)]
    refine ⟨rfl, ?_⟩
    have ht : wt + wc + wr ≠ 0 := ne_of_gt hpos
    field_simp
  · rw [hnw, if_pos hneg]
  · have hscale : normalized_weights (k * wt, k * wc, k * wr) =
        normalized_weights (wt, wc, wr) := by
      have hsum : k * wt + k * wc + k * wr = k * (wt + wc + wr) := by ring
      have hiff : k * (wt + wc + wr) ≤ 0 ↔ wt + wc + wr ≤ 0 := by
        constructor <;> intro h <;> nlinarith
      rw [hnw, hnw, hsum]
      by_cases h : wt + wc + wr ≤ 0
      · rw [if_pos (hiff.2 h), if_pos h]
      · rw [if_neg (fun hh => h (hiff.1 hh)), if_neg h]
        have hk' : k ≠ 0 := ne_of_gt hk
        rw [mul_div_mul_left _ _ hk', mul_div_mul_left _ _ hk', mul_div_mul_left _ _ hk']
    unfold compute_relevance_score
    rw [show (some (k * wt, k * wc, k * wr)).getD ((0.55 : ℝ), (0.25 : ℝ), (0.20 : ℝ)) =
          (k * wt, k * wc, k * wr) from rfl,
      show (some (wt, wc, wr)).getD ((0.55 : ℝ), (0.25 : ℝ), (0.20 : ℝ)) =
          (wt, wc, wr) from rfl, hscale]

/-- Witness for C7 at a concrete scaled triple. -/
theorem C7_weight_renormalization_witness :
    (0 : ℝ) < 2 ∧
    compute_relevance_score "graph" {} (some (2 * 0.55, 2 * 0.25, 2 * 0.20)) =
      compute_relevance_score "graph" {} (some (0.55, 0.25, 0.20)) :=
  ⟨by norm_num,
    (C7_weight_renormalization 0.55 0.25 0.20).2.2 2 (by norm_num) "graph" {}⟩

/-- Claim C6: a record with zero citations, no open access and no year,
matched by a query with no hit among its tokens of length `> 2`, scores
exactly `0.06` under the default weights after the 4-decimal rounding of
`prepare_dataframe` — only the neutral recency `0.3 * 0.20` survives. -/
theorem C6_neutral_score (query : String) (row : Row)
    (hc : row.Cites = 0) (hoa : row.OA = false) (hy : row.Year = none)
    (hq : ∀ t ∈ query_tokens query,
      str_contains t.data (searchable_text row).data = false) :
    prepared_score query row none = 0.06 := by
  have hscore : compute_relevance_score query row none = 0.06 := by
    unfold compute_relevance_score
    rw [hc, hoa, hy]
    have htok : (query_tokens query).countP
        (fun t => str_contains t.data (searchable_text row).data) = 0 :=
      List.countP_eq_zero.2 fun t ht => by simp [hq t ht]
    have hlog : Real.logb 10 (((0 : ℤ) : ℝ) + 1) = 0 := by
      norm_num [Real.logb_one]
    dsimp only
    rw [htok, hlog]
    by_cases hts : query_tokens query = []
    · rw [if_pos hts]
      unfold normalized_weights
      norm_num [inf_eq_min, min_def]
    · rw [if_neg hts]
      unfold normalized_weights
      norm_num [inf_eq_min, min_def]
  unfold prepared_score round4
  rw [hscore, show (0.06 : ℝ) * 10000 = ((600 : ℤ) : ℝ) by norm_num, round_intCast]
  norm_num

/-- Witness for C6 at a concrete record and query. -/
theorem C6_neutral_score_witness :
    ({ Title := "abc" } : Row).Cites = 0 ∧
    prepared_score "the query" { Title := "abc" } none = 0.06 :=
  ⟨rfl, C6_neutral_score "the query" { Title := "abc" } rfl rfl rfl (by decide)⟩

/-- A title of `n` distinct fingerprint tokens, for exercising the fuzzy
threshold boundary. -/
def boundary_title (n : Nat) : String :=
  String.intercalate " " ((List.range n).map fun i => "tok" ++ toString i)

set_option maxRecDepth 100000 in
set_option maxHeartbeats 3000000 in
/-- Claim C5: in the fuzzy pass, two DOI-less records merge exactly when
the Jaccard similarity of their fingerprint token sets reaches
`fuzzy_threshold`; at threshold `0.90`, a pair of similarity exactly
`9/10` merges end to end and a pair of similarity exactly `89/100` does
not. -/
theorem C5_fuzzy_threshold_boundary :
    (∀ (thr : ℚ) (A B : Finset String),
      fuzzy_should_merge "" "" A B thr = true ↔ thr ≤ jaccard_similarity A B) ∧
    (mkRat 9 10 : ℚ) = 0.90 ∧ (mkRat 89 100 : ℚ) = 0.89 ∧
    jaccard_similarity (fingerprint_token_set (boundary_title 10))
      (fingerprint_token_set (boundary_title 9)) = mkRat 9 10 ∧
    (deduplicate_results [{ Title := boundary_title 10 }, { Title := boundary_title 9 }]
      true (mkRat 9 10)).length = 1 ∧
    jaccard_similarity (fingerprint_token_set (boundary_title 100))
      (fingerprint_token_set (boundary_title 89)) = mkRat 89 100 ∧
    (deduplicate_results [{ Title := boundary_title 100 }, { Title := boundary_title 89 }]
      true (mkRat 9 10)).length = 2 := by
  refine ⟨fun thr A B => ?_, by norm_num [Rat.mkRat_eq_div],
    by norm_num [Rat.mkRat_eq_div], by decide, by decide, by decide, by decide⟩
  unfold fuzzy_should_merge
  rw [if_neg (by simp), if_pos ⟨rfl, rfl⟩]
  exact decide_eq_true_iff

/-- Witness for C5's merge-decision characterization at concrete sets. -/
theorem C5_fuzzy_threshold_boundary_witness :
    fuzzy_should_merge "" "" {"alpha", "beta"} {"alpha", "beta"} (mkRat 9 10) = true :=
  (C5_fuzzy_threshold_boundary.1 (mkRat 9 10) {"alpha", "beta"} {"alpha", "beta"}).2
    (by decide)

/-! ### DOI bookkeeping through the dedupe passes (for claim C4)

`ExactInv k it` relates an exact-pass map entry to its key: every
contributor that carries a DOI carries the key, the item's own DOI field
normalizes to the key or cleans to empty, and a DOI-less item has only
DOI-less contributors.  `DoiInv it` is the key-free consequence that
survives finalization and the fuzzy pass. -/

theorem normalize_doi_empty_of_clean {s : String} (h : clean_text s = "") :
    normalize_doi s = "" := by
  unfold normalize_doi
  rw [h]
  rfl

theorem clean_ne_of_normalize_ne {s : String} (h : normalize_doi s ≠ "") :
    clean_text s ≠ "" := fun hc => h (normalize_doi_empty_of_clean hc)

theorem dedup_key_def (row : Row) (idx : Nat) :
    dedup_key row idx =
      if normalize_doi row.DOI ≠ "" then normalize_doi row.DOI
      else if title_fingerprint row.Title ≠ "" then title_fingerprint row.Title
      else "row-" ++ toString idx := rfl

theorem dedup_key_of_doi (row : Row) (idx : Nat) (h : normalize_doi row.DOI ≠ "") :
    dedup_key row idx = normalize_doi row.DOI := by
  rw [dedup_key_def, if_pos h]

theorem merge_text_cases (cur inc : String) :
    merge_text cur inc = cur ∨
      (clean_text cur = "" ∧ clean_text inc ≠ "" ∧ merge_text cur inc = inc) := by
  unfold merge_text
  split_ifs with h
  · exact Or.inr ⟨h.1, h.2, rfl⟩
  · exact Or.inl rfl

def ExactInv (k : String) (it : DedupItem) : Prop :=
  (∀ r ∈ it.contributors, normalize_doi r.DOI ≠ "" → normalize_doi r.DOI = k) ∧
  (normalize_doi it.row.DOI = k ∨
    (normalize_doi it.row.DOI = "" ∧ clean_text it.row.DOI = "")) ∧
  (normalize_doi it.row.DOI = "" → ∀ r ∈ it.contributors, normalize_doi r.DOI = "")

def DoiInv (it : DedupItem) : Prop :=
  (∀ r ∈ it.contributors, normalize_doi r.DOI ≠ "" →
    normalize_doi r.DOI = normalize_doi it.row.DOI) ∧
  (normalize_doi it.row.DOI = "" → ∀ r ∈ it.contributors, normalize_doi r.DOI = "")

theorem exact_inv_new (row : Row) (idx : Nat)
    (hmask : normalize_doi row.DOI = "" → clean_text row.DOI = "") :
    ExactInv (dedup_key row idx) (new_item row) := by
  refine ⟨?_, ?_, ?_⟩
  · intro r hr hne
    rcases List.mem_singleton.1 hr with rfl
    exact (dedup_key_of_doi r idx hne).symm
  · by_cases hd : normalize_doi row.DOI = ""
    · exact Or.inr ⟨hd, hmask hd⟩
    · exact Or.inl (dedup_key_of_doi row idx hd).symm
  · intro hd r hr
    rcases List.mem_singleton.1 hr with rfl
    exact hd

theorem exact_inv_merge (k : String) (it : DedupItem) (row : Row) (idx : Nat)
    (hkey : dedup_key row idx = k)
    (hmask : normalize_doi row.DOI = "" → clean_text row.DOI = "")
    (hinv : ExactInv k it) : ExactInv k (merge_into row it) := by
  obtain ⟨ha, hb, hc⟩ := hinv
  have hrowkey : normalize_doi row.DOI ≠ "" → normalize_doi row.DOI = k :=
    fun hne => (dedup_key_of_doi row idx hne).symm.trans hkey
  have hDOI : (merge_into row it).row.DOI =
      if clean_text it.row.DOI = "" ∧ clean_text row.DOI ≠ "" then row.DOI
      else it.row.DOI := rfl
  have hcontrib : (merge_into row it).contributors = it.contributors ++ [row] := rfl
  refine ⟨?_, ?_, ?_⟩
  · intro r hr hne
    rw [hcontrib] at hr
    rcases List.mem_append.1 hr with hr | hr
    · exact ha r hr hne
    · rcases List.mem_singleton.1 hr with rfl
      exact hrowkey hne
  · rw [hDOI]
    split_ifs with hcond
    · have hne : normalize_doi row.DOI ≠ "" := fun h0 => hcond.2 (hmask h0)
      exact Or.inl (hrowkey hne)
    · exact hb
  · intro hnew r hr
    rw [hDOI] at hnew
    split_ifs at hnew with hcond
    · exact absurd (hmask hnew) hcond.2
    · rw [hcontrib] at hr
      rcases List.mem_append.1 hr with hr | hr
      · exact hc hnew r hr
      · rcases List.mem_singleton.1 hr with rfl
        by_contra hne
        rcases hb with hbk | ⟨_, hclean⟩
        · exact hne ((hrowkey hne).trans (hbk.symm.trans hnew))
        · exact hcond ⟨hclean, fun hc0 => hne (normalize_doi_empty_of_clean hc0)⟩

theorem mem_update_assoc {k : String} {f : DedupItem → DedupItem}
    {m : List (String × DedupItem)} {p : String × DedupItem}
    (hp : p ∈ update_assoc k f m) :
    p ∈ m ∨ ∃ it, (k, it) ∈ m ∧ p = (k, f it) := by
  induction m with
  | nil => cases hp
  | cons q m ih =>
    obtain ⟨k₀, it⟩ := q
    unfold update_assoc at hp
    by_cases hk : k₀ = k
    · rw [if_pos hk] at hp
      rcases List.mem_cons.1 hp with rfl | hp
      · exact Or.inr ⟨it, by rw [hk]; exact List.mem_cons_self _ _, by rw [hk]⟩
      · exact Or.inl (List.mem_cons_of_mem _ hp)
    · rw [if_neg hk] at hp
      rcases List.mem_cons.1 hp with rfl | hp
      · exact Or.inl (List.mem_cons_self _ _)
      · rcases ih hp with hp | ⟨it', hit', rfl⟩
        · exact Or.inl (List.mem_cons_of_mem _ hp)
        · exact Or.inr ⟨it', List.mem_cons_of_mem _ hit', rfl⟩

theorem exact_step_inv {m : List (String × DedupItem)} (idx : Nat) (row : Row)
    (hm : ∀ p ∈ m, ExactInv p.1 p.2)
    (hmask : normalize_doi row.DOI = "" → clean_text row.DOI = "") :
    ∀ p ∈ exact_step m idx row, ExactInv p.1 p.2 := by
  intro p hp
  unfold exact_step at hp
  by_cases hk : has_key (dedup_key row idx) m = true
  · rw [if_pos hk] at hp
    rcases mem_update_assoc hp with hp | ⟨it, hit, rfl⟩
    · exact hm p hp
    · exact exact_inv_merge _ it row idx rfl hmask (hm _ hit)
  · rw [if_neg hk] at hp
    rcases List.mem_append.1 hp with hp | hp
    · exact hm p hp
    · rcases List.mem_singleton.1 hp with rfl
      exact exact_inv_new row idx hmask

theorem exact_pass_from_inv (results : List Row) :
    ∀ (idx : Nat) (m : List (String × DedupItem)),
      (∀ p ∈ m, ExactInv p.1 p.2) →
      (∀ r ∈ results, normalize_doi r.DOI = "" → clean_text r.DOI = "") →
      ∀ p ∈ exact_pass_from idx m results, ExactInv p.1 p.2 := by
  induction results with
  | nil => intro idx m hm _ p hp; exact hm p hp
  | cons row rest ih =>
    intro idx m hm hres p hp
    exact ih (idx + 1) (exact_step m idx row)
      (exact_step_inv idx row hm (hres row (List.mem_cons_self _ _)))
      (fun r hr => hres r (List.mem_cons_of_mem _ hr)) p hp

theorem doi_inv_of_exact_inv {k : String} {it : DedupItem} (h : ExactInv k it) :
    DoiInv it := by
  obtain ⟨ha, hb, hc⟩ := h
  refine ⟨?_, hc⟩
  intro r hr hne
  rcases hb with hbk | ⟨hb0, _⟩
  · rw [ha r hr hne, hbk]
  · exact absurd (hc hb0 r hr) hne

theorem finalize_item_row_DOI (it : DedupItem) :
    (finalize_item it).row.DOI = it.row.DOI := by
  simp only [finalize_item]
  split_ifs <;> rfl

theorem finalize_item_contributors (it : DedupItem) :
    (finalize_item it).contributors = it.contributors := by
  simp only [finalize_item]
  split_ifs <;> rfl

theorem doi_inv_finalize {it : DedupItem} (h : DoiInv it) : DoiInv (finalize_item it) := by
  unfold DoiInv
  rw [finalize_item_row_DOI, finalize_item_contributors]
  exact h

theorem fuzzy_should_merge_cases {rd ed : String} {A B : Finset String} {thr : ℚ}
    (h : fuzzy_should_merge rd ed A B thr = true) :
    (rd ≠ "" ∧ ed ≠ "" ∧ rd = ed) ∨ (rd = "" ∧ ed = "") := by
  unfold fuzzy_should_merge at h
  split_ifs at h with h1 h2
  · exact Or.inl h1
  · exact Or.inr h2

theorem fuzzy_insert_inv (thr : ℚ) (rc : DedupItem) (hrc : DoiInv rc) :
    ∀ refined : List DedupItem, (∀ it ∈ refined, DoiInv it) →
      ∀ it ∈ fuzzy_insert (normalize_doi rc.row.DOI)
        (fingerprint_token_set rc.row.Title) thr rc refined, DoiInv it := by
  intro refined
  induction refined with
  | nil =>
    intro _ it hit
    rcases List.mem_singleton.1 hit with rfl
    exact hrc
  | cons existing rest ih =>
    intro hall it hit
    unfold fuzzy_insert at hit
    by_cases hsm : fuzzy_should_merge (normalize_doi rc.row.DOI)
        (normalize_doi existing.row.DOI) (fingerprint_token_set rc.row.Title)
        (fingerprint_token_set existing.row.Title) thr = true
    · rw [if_pos hsm] at hit
      rcases List.mem_cons.1 hit with rfl | hit
      · have hex : DoiInv existing := hall existing (List.mem_cons_self _ _)
        have hDOI : (merge_result_rows existing.row rc.row).DOI =
            merge_text existing.row.DOI rc.row.DOI := merge_result_rows_DOI _ _
        rcases fuzzy_should_merge_cases hsm with ⟨hrne, hene, hreq⟩ | ⟨hr0, he0⟩
        · have hkeep : merge_text existing.row.DOI rc.row.DOI = existing.row.DOI := by
            rcases merge_text_cases existing.row.DOI rc.row.DOI with hk | ⟨hcur, _, _⟩
            · exact hk
            · exact absurd hcur (clean_ne_of_normalize_ne hene)
          constructor
          · intro r hr hne
            dsimp only at hr ⊢
            rw [hDOI, hkeep]
            rcases List.mem_append.1 hr with hr | hr
            · exact hex.1 r hr hne
            · rw [hrc.1 r hr hne, hreq]
          · intro h0 r hr
            dsimp only at h0 hr
            rw [hDOI, hkeep] at h0
            exact absurd h0 hene
        · have hrall : ∀ r ∈ rc.contributors, normalize_doi r.DOI = "" := hrc.2 hr0
          have heall : ∀ r ∈ existing.contributors, normalize_doi r.DOI = "" :=
            hex.2 he0
          constructor
          · intro r hr hne
            dsimp only at hr
            rcases List.mem_append.1 hr with hr | hr
            · exact absurd (heall r hr) hne
            · exact absurd (hrall r hr) hne
          · intro _ r hr
            dsimp only at hr
            rcases List.mem_append.1 hr with hr | hr
            · exact heall r hr
            · exact hrall r hr
      · exact hall it (List.mem_cons_of_mem _ hit)
    · rw [if_neg hsm] at hit
      rcases List.mem_cons.1 hit with rfl | hit
      · exact hall it (List.mem_cons_self _ _)
      · exact ih (fun j hj => hall j (List.mem_cons_of_mem _ hj)) it hit

theorem fuzzy_pass_inv (thr : ℚ) :
    ∀ (queue refined : List DedupItem),
      (∀ it ∈ refined, DoiInv it) → (∀ it ∈ queue, DoiInv it) →
      ∀ it ∈ fuzzy_pass thr refined queue, DoiInv it := by
  intro queue
  induction queue with
  | nil => intro refined hr _ it hit; exact hr it hit
  | cons rc rest ih =>
    intro refined hr hq it hit
    unfold fuzzy_pass at hit
    exact ih _
      (fuzzy_insert_inv thr rc (hq rc (List.mem_cons_self _ _)) refined hr)
      (fun j hj => hq j (List.mem_cons_of_mem _ hj)) it hit

/-- Claim C4 counterexample: a DOI field consisting only of a resolver
prefix cleans to non-empty text but normalizes to the empty DOI, which
masks a contributor's DOI from the fuzzy pass.  Two records with the same
title fingerprint (`"Quantum Widgets"`) and different non-empty normalized
DOIs end up merged into one record. -/
theorem C4_counterexample :
    normalize_doi "Machine Learning" ≠ "" ∧
    normalize_doi "Machine Learnings" ≠ "" ∧
    normalize_doi "Machine Learning" ≠ normalize_doi "Machine Learnings" ∧
    (deduplicate_items
      [{ Title := "Machine Learning!", DOI := "https://doi.org/", Source := "ArXiv" },
       { Title := "Quantum Widgets", DOI := "Machine Learning", Source := "Crossref" },
       { Title := "Machine Learnings?", DOI := "http://doi.org/", Source := "OpenAlex" },
       { Title := "Quantum Widgets", DOI := "Machine Learnings", Source := "Google" }]
      true (mkRat 3 10)).map (fun it => it.contributors.map Row.DOI) =
    [["https://doi.org/", "Machine Learning", "http://doi.org/", "Machine Learnings"]] := by
  decide

/-- Claim C4 (amended): provided no input record's DOI field is a
non-empty string that `normalize_doi` maps to the empty DOI (such as a
bare resolver prefix), `deduplicate_results` never merges two records
carrying different non-empty normalized DOIs, for every input list and
every setting of the fuzzy flags, through both the exact and the fuzzy
pass. -/
theorem C4_doi_separation (results : List Row) (fuzzy_title : Bool) (thr : ℚ)
    (hmask : ∀ r ∈ results, normalize_doi r.DOI = "" → clean_text r.DOI = "") :
    ∀ it ∈ deduplicate_items results fuzzy_title thr,
      ∀ r₁ ∈ it.contributors, ∀ r₂ ∈ it.contributors,
        normalize_doi r₁.DOI ≠ "" → normalize_doi r₂.DOI ≠ "" →
        normalize_doi r₁.DOI = normalize_doi r₂.DOI := by
  have hout : ∀ it ∈ (exact_pass results).map (fun p => finalize_item p.2), DoiInv it := by
    intro it hit
    rcases List.mem_map.1 hit with ⟨p, hp, rfl⟩
    exact doi_inv_finalize (doi_inv_of_exact_inv
      (exact_pass_from_inv results 0 [] (fun q hq => absurd hq (List.not_mem_nil q))
        hmask p hp))
  have hinv : ∀ it ∈ deduplicate_items results fuzzy_title thr, DoiInv it := by
    unfold deduplicate_items
    cases fuzzy_title with
    | false => exact hout
    | true =>
      exact fuzzy_pass_inv thr _ [] (fun j hj => absurd hj (List.not_mem_nil j)) hout
  intro it hit r₁ h₁ r₂ h₂ hne₁ hne₂
  have h := hinv it hit
  rw [h.1 r₁ h₁ hne₁, h.1 r₂ h₂ hne₂]

/-- Witness for C4 at a concrete mask-free input: the two resolver-prefixed
spellings of one DOI merge in the exact pass, and the theorem applies to
the merged item. -/
theorem C4_doi_separation_witness :
    normalize_doi ({ DOI := "10.1/x", Title := "Foo" } : Row).DOI =
      normalize_doi ({ DOI := "https://doi.org/10.1/X", Title := "Bar" } : Row).DOI := by
  have h := C4_doi_separation
    [{ DOI := "10.1/x", Title := "Foo" }, { DOI := "https://doi.org/10.1/X", Title := "Bar" }]
    false 0 (by decide)
  exact h
    ((deduplicate_items
      [{ DOI := "10.1/x", Title := "Foo" }, { DOI := "https://doi.org/10.1/X", Title := "Bar" }]
      false 0).head (by decide))
    (by decide)
    { DOI := "10.1/x", Title := "Foo" } (by decide)
    { DOI := "https://doi.org/10.1/X", Title := "Bar" } (by decide)
    (by decide) (by decide)

/-! ### Source-set bookkeeping through the dedupe passes (for claim C8) -/

theorem charsLt_irrefl : ∀ a : List Char, charsLt a a = false
  | [] => rfl
  | c :: cs => by simp [charsLt, charsLt_irrefl cs]

theorem charsLt_trans : ∀ {a b c : List Char},
    charsLt a b = true → charsLt b c = true → charsLt a c = true
  | [], [], _, hab, _ => by cases hab
  | [], _ :: _, [], _, hbc => by cases hbc
  | [], _ :: _, _ :: _, _, _ => rfl
  | _ :: _, [], _, hab, _ => by cases hab
  | _ :: _, _ :: _, [], _, hbc => by cases hbc
  | x :: xs, y :: ys, z :: zs, hab, hbc => by
    simp only [charsLt, Bool.or_eq_true, Bool.and_eq_true, decide_eq_true_eq] at hab hbc ⊢
    rcases hab with h1 | ⟨he1, hr1⟩ <;> rcases hbc with h2 | ⟨he2, hr2⟩
    · exact Or.inl (lt_trans h1 h2)
    · exact Or.inl (he2 ▸ h1)
    · exact Or.inl (he1 ▸ h2)
    · exact Or.inr ⟨he1.trans he2, charsLt_trans hr1 hr2⟩

theorem charsLt_total : ∀ a b : List Char,
    charsLt a b = true ∨ a = b ∨ charsLt b a = true
  | [], [] => Or.inr (Or.inl rfl)
  | [], _ :: _ => Or.inl rfl
  | _ :: _, [] => Or.inr (Or.inr rfl)
  | x :: xs, y :: ys => by
    rcases lt_trichotomy x y with h | rfl | h
    · exact Or.inl (by simp [charsLt, h])
    · rcases charsLt_total xs ys with h | rfl | h
      · exact Or.inl (by simp [charsLt, h])
      · exact Or.inr (Or.inl rfl)
      · exact Or.inr (Or.inr (by simp [charsLt, h]))
    · exact Or.inr (Or.inr (by simp [charsLt, h]))

theorem pyStrLt_asym (a b : String) (h : pyStrLt a b = true) : pyStrLt b a = false := by
  unfold pyStrLt at h ⊢
  apply Bool.eq_false_iff.2
  intro h2
  have := charsLt_trans h h2
  rw [charsLt_irrefl] at this
  exact Bool.false_ne_true this

theorem pyStrLt_negtrans (x y z : String) (h : pyStrLt z x = true) :
    pyStrLt z y = true ∨ pyStrLt y x = true := by
  unfold pyStrLt at h ⊢
  rcases charsLt_total z.data y.data with hzy | hzy | hyz
  · exact Or.inl hzy
  · exact Or.inr (hzy ▸ h)
  · exact Or.inr (charsLt_trans hyz h)

theorem stableInsert_front (p : α → α → Bool) (a : α) (l : List α)
    (h : ∀ b ∈ l, p b a = false) : stableInsert p a l = a :: l := by
  cases l with
  | nil => rfl
  | cons b l =>
    unfold stableInsert
    rw [if_neg]
    rw [h b (List.mem_cons_self _ _)]
    exact Bool.false_ne_true

theorem stableSort_eq_self_of_pairwise (p : α → α → Bool) {l : List α}
    (h : l.Pairwise fun a b => p b a = false) : stableSort p l = l := by
  induction l with
  | nil => rfl
  | cons a l ih =>
    rw [List.pairwise_cons] at h
    unfold stableSort
    rw [ih h.2, stableInsert_front p a l h.1]

theorem mem_addTag {acc : List String} {t x : String} :
    x ∈ addTag acc t ↔ x ∈ acc ∨ x = t := by
  unfold addTag
  split_ifs with h
  · constructor
    · exact Or.inl
    · rintro (hx | rfl)
      · exact hx
      · exact h
  · simp

theorem nodup_addTag {acc : List String} (t : String) (h : acc.Nodup) :
    (addTag acc t).Nodup := by
  unfold addTag
  split_ifs with ht
  · exact h
  · simp [List.nodup_append, h, ht]

theorem mem_foldl_addTag : ∀ (l acc : List String) (x : String),
    x ∈ l.foldl addTag acc ↔ x ∈ acc ∨ x ∈ l := by
  intro l
  induction l with
  | nil => simp
  | cons t l ih =>
    intro acc x
    rw [List.foldl_cons, ih, mem_addTag, List.mem_cons]
    constructor
    · rintro ((hx | rfl) | hx)
      · exact Or.inl hx
      · exact Or.inr (Or.inl rfl)
      · exact Or.inr (Or.inr hx)
    · rintro (hx | (rfl | hx))
      · exact Or.inl (Or.inl hx)
      · exact Or.inl (Or.inr rfl)
      · exact Or.inr hx

theorem nodup_foldl_addTag : ∀ (l acc : List String), acc.Nodup →
    (l.foldl addTag acc).Nodup := by
  intro l
  induction l with
  | nil => intro acc h; exact h
  | cons t l ih => intro acc h; exact ih _ (nodup_addTag t h)

theorem foldl_addTag_of_subset : ∀ (l acc : List String), (∀ x ∈ l, x ∈ acc) →
    l.foldl addTag acc = acc := by
  intro l
  induction l with
  | nil => intro acc _; rfl
  | cons t l ih =>
    intro acc h
    rw [List.foldl_cons,
      show addTag acc t = acc from if_pos (h t (List.mem_cons_self _ _))]
    exact ih acc fun x hx => h x (List.mem_cons_of_mem _ hx)

theorem foldl_addTag_fresh : ∀ (l acc : List String), l.Nodup →
    (∀ x ∈ l, x ∉ acc) → l.foldl addTag acc = acc ++ l := by
  intro l
  induction l with
  | nil => intro acc _ _; simp
  | cons t l ih =>
    intro acc hnd hfresh
    rw [List.nodup_cons] at hnd
    rw [List.foldl_cons,
      show addTag acc t = acc ++ [t] from if_neg (hfresh t (List.mem_cons_self _ _)),
      ih (acc ++ [t]) hnd.2, List.append_assoc]
    · rfl
    · intro x hx
      rw [List.mem_append, List.mem_singleton]
      rintro (hxa | rfl)
      · exact hfresh x (List.mem_cons_of_mem _ hx) hxa
      · exact hnd.1 hx

theorem tagUnion_self (T : List String) : tagUnion T T = T :=
  foldl_addTag_of_subset T T fun _ h => h

theorem exists_suffix_foldl_addTag : ∀ (l acc : List String),
    ∃ ex, l.foldl addTag acc = acc ++ ex := by
  intro l
  induction l with
  | nil => intro acc; exact ⟨[], by simp⟩
  | cons t l ih =>
    intro acc
    rw [List.foldl_cons]
    by_cases h : t ∈ acc
    · rw [show addTag acc t = acc from if_pos h]
      exact ih acc
    · rw [show addTag acc t = acc ++ [t] from if_neg h]
      rcases ih (acc ++ [t]) with ⟨ex, hex⟩
      exact ⟨[t] ++ ex, by rw [hex, List.append_assoc]⟩

theorem mem_tagUnion {a b : List String} {x : String} :
    x ∈ tagUnion a b ↔ x ∈ a ∨ x ∈ b := mem_foldl_addTag b a x

theorem tagUnion_ne_nil_left {a b : List String} (h : a ≠ []) : tagUnion a b ≠ [] := by
  rcases exists_suffix_foldl_addTag b a with ⟨ex, hex⟩
  unfold tagUnion
  rw [hex]
  intro h0
  exact h (List.append_eq_nil.1 h0).1

theorem splitBy_ne_nil (p : Char → Bool) : ∀ cs, splitBy p cs ≠ []
  | [] => by simp [splitBy]
  | c :: cs => by
    unfold splitBy
    rcases hs : splitBy p cs with _ | ⟨h, t⟩
    · exact absurd hs (splitBy_ne_nil p cs)
    · split_ifs <;> simp

theorem splitBy_cons_sep {p : Char → Bool} {c : Char} (hc : p c = true) (cs : List Char) :
    splitBy p (c :: cs) = [] :: splitBy p cs := by
  rcases hs : splitBy p cs with _ | ⟨h, t⟩
  · exact absurd hs (splitBy_ne_nil p cs)
  · show (match splitBy p cs with
      | [] => [[]]
      | h :: t => if p c = true then [] :: h :: t else (c :: h) :: t) = [] :: h :: t
    rw [hs]
    show (if p c = true then [] :: h :: t else (c :: h) :: t) = [] :: h :: t
    rw [if_pos hc]

theorem splitBy_cons_nosep {p : Char → Bool} {c : Char} (hc : p c = false) (cs : List Char)
    {h0 : List Char} {t : List (List Char)} (hs : splitBy p cs = h0 :: t) :
    splitBy p (c :: cs) = (c :: h0) :: t := by
  show (match splitBy p cs with
    | [] => [[]]
    | h :: t => if p c = true then [] :: h :: t else (c :: h) :: t) = (c :: h0) :: t
  rw [hs]
  show (if p c = true then [] :: h0 :: t else (c :: h0) :: t) = (c :: h0) :: t
  rw [if_neg (by rw [hc]; exact Bool.false_ne_true)]

theorem splitBy_append_sep {p : Char → Bool} {c : Char} (hc : p c = true) :
    ∀ xs ys, splitBy p (xs ++ c :: ys) = splitBy p xs ++ splitBy p ys := by
  intro xs
  induction xs with
  | nil => intro ys; rw [List.nil_append, splitBy_cons_sep hc]; rfl
  | cons x xs ih =>
    intro ys
    rw [List.cons_append]
    by_cases px : p x = true
    · rw [splitBy_cons_sep px, ih, splitBy_cons_sep px, List.cons_append]
    · rcases hs : splitBy p xs with _ | ⟨h0, t⟩
      · exact absurd hs (splitBy_ne_nil p xs)
      · have hx : p x = false := by simpa using px
        have happ : splitBy p (xs ++ c :: ys) = h0 :: (t ++ splitBy p ys) := by
          rw [ih, hs, List.cons_append]
        rw [splitBy_cons_nosep hx _ happ, splitBy_cons_nosep hx _ hs, List.cons_append]

theorem splitBy_no_sep {p : Char → Bool} : ∀ {w : List Char},
    (∀ c ∈ w, p c = false) → splitBy p w = [w]
  | [], _ => rfl
  | c :: w, h => by
    have hw : splitBy p w = [w] := splitBy_no_sep fun d hd => h d (List.mem_cons_of_mem _ hd)
    exact splitBy_cons_nosep (h c (List.mem_cons_self _ _)) w hw

theorem splitBy_pieces_no_sep {p : Char → Bool} : ∀ {cs : List Char},
    ∀ piece ∈ splitBy p cs, ∀ c ∈ piece, p c = false := by
  intro cs
  induction cs with
  | nil =>
    intro piece hp c hc
    rcases List.mem_singleton.1 hp with rfl
    cases hc
  | cons x cs ih =>
    intro piece hp c hc
    rcases hs : splitBy p cs with _ | ⟨h0, t⟩
    · exact absurd hs (splitBy_ne_nil p cs)
    · by_cases px : p x = true
      · rw [splitBy_cons_sep px] at hp
        rcases List.mem_cons.1 hp with rfl | hp
        · cases hc
        · exact ih piece (hs ▸ hp) c hc
      · have hx : p x = false := by simpa using px
        rw [splitBy_cons_nosep hx cs hs] at hp
        rcases List.mem_cons.1 hp with rfl | hp
        · rcases List.mem_cons.1 hc with rfl | hc
          · exact hx
          · exact ih h0 (hs ▸ List.mem_cons_self _ _) c hc
        · exact ih piece (hs ▸ List.mem_cons_of_mem _ hp) c hc

theorem pyWords_append_space (xs ys : List Char) :
    pyWords (xs ++ ' ' :: ys) = pyWords xs ++ pyWords ys := by
  unfold pyWords
  rw [splitBy_append_sep (by decide) xs ys, List.filter_append]

theorem pyWords_cons_space (cs : List Char) : pyWords (' ' :: cs) = pyWords cs := by
  unfold pyWords
  rw [splitBy_cons_sep (by decide)]
  simp [List.filter]

theorem pyWords_append_space_right (w : List Char) : pyWords (w ++ [' ']) = pyWords w := by
  have := pyWords_append_space w []
  simpa [pyWords, splitBy] using this

theorem pyWords_no_space {w : List Char} (h : ∀ c ∈ w, pySpace c = false)
    (hne : w ≠ []) : pyWords w = [w] := by
  unfold pyWords
  rw [splitBy_no_sep h]
  simp [List.filter, hne]

theorem pyWords_props {cs : List Char} :
    ∀ w ∈ pyWords cs, w ≠ [] ∧ ∀ c ∈ w, pySpace c = false := by
  intro w hw
  unfold pyWords at hw
  rw [List.mem_filter] at hw
  exact ⟨by simpa using hw.2, splitBy_pieces_no_sep w hw.1⟩

theorem joinSep_cons (sep : List Char) (w : List Char) {ws : List (List Char)}
    (h : ws ≠ []) : joinSep sep (w :: ws) = w ++ sep ++ joinSep sep ws := by
  cases ws with
  | nil => exact absurd rfl h
  | cons w2 ws => rfl

theorem joinSep_append (sep : List Char) : ∀ {ws1 ws2 : List (List Char)},
    ws1 ≠ [] → ws2 ≠ [] →
    joinSep sep (ws1 ++ ws2) = joinSep sep ws1 ++ sep ++ joinSep sep ws2 := by
  intro ws1
  induction ws1 with
  | nil => intro _ h _; exact absurd rfl h
  | cons w ws1 ih =>
    intro ws2 _ h2
    cases ws1 with
    | nil => rw [List.cons_append, List.nil_append, joinSep_cons sep w h2]; rfl
    | cons w1 ws1 =>
      rw [List.cons_append, joinSep_cons sep w (by simp),
        joinSep_cons sep w (by simp), ih (by simp) h2]
      simp [List.append_assoc]

theorem pyWords_joinSep : ∀ {ws : List (List Char)},
    (∀ w ∈ ws, w ≠ [] ∧ ∀ c ∈ w, pySpace c = false) →
    pyWords (joinSep [' '] ws) = ws := by
  intro ws
  induction ws with
  | nil => intro _; rfl
  | cons w ws ih =>
    intro h
    cases ws with
    | nil =>
      have hw := h w (List.mem_cons_self _ _)
      show pyWords w = [w]
      exact pyWords_no_space hw.2 hw.1
    | cons w1 ws1 =>
      have hw := h w (List.mem_cons_self _ _)
      rw [joinSep_cons _ _ (by simp), List.append_assoc, List.singleton_append,
        pyWords_append_space, pyWords_no_space hw.2 hw.1,
        ih fun v hv => h v (List.mem_cons_of_mem _ hv)]
      rfl

theorem clean_text_idem (s : String) : clean_text (clean_text s) = clean_text s := by
  show String.mk (joinSep [' '] (pyWords (joinSep [' '] (pyWords s.data)))) = _
  rw [pyWords_joinSep fun w hw => pyWords_props w hw]
  rfl

/-- An admissible source tag: non-empty, already cleaned, and containing no
`"|"` separator. -/
def GoodTag (t : String) : Prop :=
  t ≠ "" ∧ clean_text t = t ∧ '|' ∉ t.data

theorem good_pyWords {t : String} (h : GoodTag t) :
    joinSep [' '] (pyWords t.data) = t.data ∧ pyWords t.data ≠ [] := by
  have hdata : joinSep [' '] (pyWords t.data) = t.data := congrArg String.data h.2.1
  refine ⟨hdata, ?_⟩
  intro h0
  rw [h0] at hdata
  exact h.1 (show t = "" by
    cases t with
    | mk data => cases hdata.symm; rfl)

theorem clean_mk_append_space (w : List Char) :
    clean_text (String.mk (w ++ [' '])) = clean_text (String.mk w) := by
  show String.mk (joinSep [' '] (pyWords (w ++ [' ']))) = _
  rw [pyWords_append_space_right]
  rfl

theorem clean_mk_cons_space (w : List Char) :
    clean_text (String.mk (' ' :: w)) = clean_text (String.mk w) := by
  show String.mk (joinSep [' '] (pyWords (' ' :: w))) = _
  rw [pyWords_cons_space]
  rfl

theorem cleanChars_join3 : ∀ {tags : List String}, (∀ t ∈ tags, GoodTag t) →
    joinSep [' '] (pyWords (joinSep [' ', '|', ' '] (tags.map String.data))) =
      joinSep [' ', '|', ' '] (tags.map String.data) ∧
    (tags ≠ [] → pyWords (joinSep [' ', '|', ' '] (tags.map String.data)) ≠ []) := by
  intro tags
  induction tags with
  | nil => intro _; exact ⟨rfl, fun h => absurd rfl h⟩
  | cons t tags ih =>
    intro h
    have ht := h t (List.mem_cons_self _ _)
    have hw := good_pyWords ht
    cases tags with
    | nil =>
      refine ⟨hw.1, fun _ => ?_⟩
      show pyWords t.data ≠ []
      exact hw.2
    | cons t1 tags1 =>
      obtain ⟨ihj, ihne⟩ := ih fun v hv => h v (List.mem_cons_of_mem _ hv)
      have hne : pyWords (joinSep [' ', '|', ' ']
          ((t1 :: tags1).map String.data)) ≠ [] := ihne (by simp)
      have hshape : joinSep [' ', '|', ' '] ((t :: t1 :: tags1).map String.data) =
          t.data ++ ' ' :: ('|' :: (' ' ::
            joinSep [' ', '|', ' '] ((t1 :: tags1).map String.data))) := by
        rw [List.map_cons, joinSep_cons _ _ (by simp)]
        simp [List.append_assoc]
      have hwords : pyWords (joinSep [' ', '|', ' '] ((t :: t1 :: tags1).map String.data)) =
          pyWords t.data ++ ([['|']] ++ pyWords (joinSep [' ', '|', ' ']
            ((t1 :: tags1).map String.data))) := by
        rw [hshape, pyWords_append_space]
        congr 1
        show pyWords (['|'] ++ ' ' :: joinSep [' ', '|', ' ']
          ((t1 :: tags1).map String.data)) = _
        rw [pyWords_append_space, @pyWords_no_space ['|'] (by decide) (by simp)]
      constructor
      · rw [hwords, joinSep_append [' '] hw.2 (by simp),
          joinSep_append [' '] (by simp) hne, hw.1, ihj, hshape]
        show t.data ++ [' '] ++ (['|'] ++ [' '] ++ _) = _
        simp [List.append_assoc]
      · intro _
        rw [hwords]
        simp [hw.2]

theorem clean_join3 {tags : List String} (h : ∀ t ∈ tags, GoodTag t) :
    clean_text (String.mk (joinSep [' ', '|', ' '] (tags.map String.data))) =
      String.mk (joinSep [' ', '|', ' '] (tags.map String.data)) := by
  show String.mk (joinSep [' '] (pyWords (joinSep [' ', '|', ' '] (tags.map String.data)))) = _
  rw [(cleanChars_join3 h).1]

theorem tokens_of_join3 : ∀ {tags : List String}, (∀ t ∈ tags, GoodTag t) →
    ((splitBy (· = '|') (joinSep [' ', '|', ' '] (tags.map String.data))).map
      (fun piece => clean_text (String.mk piece))).filter (· ≠ "") = tags := by
  intro tags
  induction tags with
  | nil => intro _; rfl
  | cons t tags ih =>
    intro h
    have ht := h t (List.mem_cons_self _ _)
    have hpipe : ∀ c ∈ t.data, (c = '|' : Bool) = false := by
      intro c hc
      by_cases hcp : c = '|'
      · exact absurd (hcp ▸ hc) ht.2.2
      · simpa using hcp
    cases tags with
    | nil =>
      have hsplit : splitBy (· = '|') (joinSep [' ', '|', ' '] ([t].map String.data)) =
          [t.data] := splitBy_no_sep hpipe
      rw [hsplit, List.map_singleton]
      have hcleant : clean_text (String.mk t.data) = t := ht.2.1
      rw [hcleant]
      simp [List.filter, ht.1]
    | cons t1 tags1 =>
      have hshape : joinSep [' ', '|', ' '] ((t :: t1 :: tags1).map String.data) =
          (t.data ++ [' ']) ++ '|' :: (' ' ::
            joinSep [' ', '|', ' '] ((t1 :: tags1).map String.data)) := by
        rw [List.map_cons, joinSep_cons _ _ (by simp)]
        simp [List.append_assoc]
      have hpipe2 : ∀ c ∈ t.data ++ [' '], (c = '|' : Bool) = false := by
        intro c hc
        rcases List.mem_append.1 hc with hc | hc
        · exact hpipe c hc
        · rcases List.mem_singleton.1 hc with rfl
          decide
      rcases hs : splitBy (· = '|')
          (joinSep [' ', '|', ' '] ((t1 :: tags1).map String.data)) with _ | ⟨h0, t0⟩
      · exact absurd hs (splitBy_ne_nil _ _)
      have hIH := ih fun v hv => h v (List.mem_cons_of_mem _ hv)
      rw [hs, List.map_cons] at hIH
      rw [hshape, splitBy_append_sep (by decide), splitBy_no_sep hpipe2,
        splitBy_cons_nosep (by decide) _ hs, List.singleton_append,
        List.map_cons, List.map_cons, clean_mk_append_space, clean_mk_cons_space]
      have hcleant : clean_text (String.mk t.data) = t := ht.2.1
      rw [hcleant, List.filter_cons_of_pos (by simp [ht.1]), hIH]

theorem source_token_set_join {tags : List String} (hgood : ∀ t ∈ tags, GoodTag t)
    (hnodup : tags.Nodup) :
    source_token_set (String.mk (joinSep [' ', '|', ' '] (tags.map String.data))) = tags := by
  unfold source_token_set
  rw [clean_join3 hgood,
    show (String.mk (joinSep [' ', '|', ' '] (tags.map String.data))).data =
      joinSep [' ', '|', ' '] (tags.map String.data) from rfl,
    tokens_of_join3 hgood,
    foldl_addTag_fresh tags [] hnodup (fun x _ hx => List.not_mem_nil x hx)]
  rfl

theorem source_token_set_of_clean_empty {s : String} (h : clean_text s = "") :
    source_token_set s = [] := by
  unfold source_token_set
  rw [h]
  rfl

theorem source_token_set_unknown : source_token_set "Unknown" = ["Unknown"] := by decide

theorem joined_sources_unknown : joined_sources ["Unknown"] = "Unknown" := by decide

theorem good_unknown : GoodTag "Unknown" := ⟨by decide, by decide, by decide⟩

theorem row_ext {a b : Row} (hS : a.Source = b.Source) (hT : a.Title = b.Title)
    (hA : a.Authors = b.Authors) (hY : a.Year = b.Year) (hV : a.Venue = b.Venue)
    (hU : a.URL = b.URL) (hP : a.PDF = b.PDF) (hD : a.DOI = b.DOI)
    (hC : a.Cites = b.Cites) (hAb : a.Abstract = b.Abstract) (hO : a.OA = b.OA)
    (hSc : a.SourceCount = b.SourceCount) : a = b := by
  cases a; cases b; simp_all

theorem merge_text_self (x : String) : merge_text x x = x := by
  unfold merge_text
  rw [if_neg]
  rintro ⟨h1, h2⟩
  exact h2 h1

theorem merge_result_rows_Cites (c i : Row) :
    (merge_result_rows c i).Cites = max c.Cites i.Cites := rfl

theorem merge_result_rows_OA (c i : Row) :
    (merge_result_rows c i).OA = (c.OA || i.OA) := rfl

theorem merge_result_rows_Source (c i : Row) :
    (merge_result_rows c i).Source =
      if tagUnion (source_token_set c.Source) (source_token_set i.Source) ≠ [] then
        joined_sources (tagUnion (source_token_set c.Source) (source_token_set i.Source))
      else if clean_text c.Source ≠ "" then clean_text c.Source else "Unknown" := rfl

theorem merge_result_rows_SourceCount (c i : Row) :
    (merge_result_rows c i).SourceCount =
      if tagUnion (source_token_set c.Source) (source_token_set i.Source) ≠ [] then
        (tagUnion (source_token_set c.Source) (source_token_set i.Source)).length
      else 1 := rfl

/-- The canonical shape every row coming out of `deduplicate_results` has:
its `Source` is the `" | "`-join of a sorted duplicate-free non-empty list
of admissible tags, and `SourceCount` is that list's length. -/
def SrcInv (row : Row) : Prop :=
  ∃ tags : List String, (∀ t ∈ tags, GoodTag t) ∧ tags.Nodup ∧ tags ≠ [] ∧
    tags.Pairwise (fun a b => pyStrLt b a = false) ∧
    row.Source = String.mk (joinSep [' ', '|', ' '] (tags.map String.data)) ∧
    row.SourceCount = tags.length

theorem merge_self_of_SrcInv {row : Row} (h : SrcInv row) :
    merge_result_rows row row = row := by
  obtain ⟨tags, hgood, hnodup, hne, hsorted, hsrc, hcount⟩ := h
  have htok : source_token_set row.Source = tags := by
    rw [hsrc]; exact source_token_set_join hgood hnodup
  have hsset : tagUnion (source_token_set row.Source) (source_token_set row.Source) = tags := by
    rw [htok]; exact tagUnion_self tags
  apply row_ext
  · rw [merge_result_rows_Source, hsset, if_pos hne]
    unfold joined_sources
    rw [stableSort_eq_self_of_pairwise pyStrLt hsorted, ← hsrc]
  · rw [merge_result_rows_Title]; exact merge_text_self _
  · rw [merge_result_rows_Authors]; exact merge_text_self _
  · rw [merge_result_rows_Year]; cases row.Year <;> simp
  · rw [merge_result_rows_Venue]; exact merge_text_self _
  · rw [merge_result_rows_URL]; exact merge_text_self _
  · rw [merge_result_rows_PDF]; exact merge_text_self _
  · rw [merge_result_rows_DOI]; exact merge_text_self _
  · rw [merge_result_rows_Cites]; exact max_self _
  · rw [merge_result_rows_Abstract, if_neg (lt_irrefl _)]
  · rw [merge_result_rows_OA]; exact Bool.or_self _
  · rw [merge_result_rows_SourceCount, hsset, if_pos hne, ← hcount]

theorem merge_SrcInv {a b : Row} (ha : SrcInv a) (hb : SrcInv b) :
    SrcInv (merge_result_rows a b) := by
  obtain ⟨ta, hga, hna, hea, _, hsrca, _⟩ := ha
  obtain ⟨tb, hgb, hnb, _, _, hsrcb, _⟩ := hb
  have htoka : source_token_set a.Source = ta := by
    rw [hsrca]; exact source_token_set_join hga hna
  have htokb : source_token_set b.Source = tb := by
    rw [hsrcb]; exact source_token_set_join hgb hnb
  have hUne : tagUnion ta tb ≠ [] := tagUnion_ne_nil_left hea
  refine ⟨stableSort pyStrLt (tagUnion ta tb), ?_, ?_, ?_, ?_, ?_, ?_⟩
  · intro t ht
    rcases mem_tagUnion.1 (mem_stableSort.1 ht) with h | h
    · exact hga t h
    · exact hgb t h
  · exact ((stableSort_perm pyStrLt _).nodup_iff).2 (nodup_foldl_addTag tb ta hna)
  · intro h0
    have hperm := stableSort_perm pyStrLt (tagUnion ta tb)
    rw [h0] at hperm
    exact hUne hperm.symm.eq_nil
  · exact pairwise_stableSort _ _ pyStrLt_asym pyStrLt_negtrans
  · rw [merge_result_rows_Source, htoka, htokb, if_pos hUne]
    rfl
  · rw [merge_result_rows_SourceCount, htoka, htokb, if_pos hUne]
    exact ((stableSort_perm pyStrLt _).length_eq).symm

/-- The exact-pass bookkeeping: the accumulated `_source_set` holds only
admissible distinct tags, and an empty set means the row's `Source` is
still raw-empty or has been set to `"Unknown"` by an earlier merge. -/
def SetP (it : DedupItem) : Prop :=
  (∀ x ∈ it.sourceSet, GoodTag x) ∧ it.sourceSet.Nodup ∧
  (it.sourceSet = [] → (clean_text it.row.Source = "" ∨ it.row.Source = "Unknown"))

theorem row_source_tag_good {row : Row} (hp : '|' ∉ (clean_text row.Source).data) :
    ∀ x ∈ row_source_tag row, GoodTag x := by
  intro x hx
  unfold row_source_tag at hx
  split_ifs at hx with h
  · rcases List.mem_singleton.1 hx with rfl
    exact ⟨h, clean_text_idem _, hp⟩
  · cases hx

theorem row_source_tag_nil {row : Row} : row_source_tag row = [] →
    clean_text row.Source = "" := by
  unfold row_source_tag
  split_ifs with hc
  · intro h; exact absurd h (by simp)
  · intro _; simpa using hc

theorem tagUnion_nil_parts {a b : List String} (h : tagUnion a b = []) :
    a = [] ∧ b = [] := by
  constructor
  · rcases exists_suffix_foldl_addTag b a with ⟨ex, hex⟩
    unfold tagUnion at h
    rw [hex] at h
    exact (List.append_eq_nil.1 h).1
  · rw [List.eq_nil_iff_forall_not_mem]
    intro x hx
    have hm : x ∈ tagUnion a b := mem_tagUnion.2 (Or.inr hx)
    rw [h] at hm
    exact List.not_mem_nil x hm

theorem new_item_SetP (row : Row) (hp : '|' ∉ (clean_text row.Source).data) :
    SetP (new_item row) := by
  refine ⟨row_source_tag_good hp, ?_, fun h => Or.inl (row_source_tag_nil h)⟩
  show (row_source_tag row).Nodup
  unfold row_source_tag
  split_ifs <;> simp

theorem merge_into_SetP (row : Row) (it : DedupItem)
    (hp : '|' ∉ (clean_text row.Source).data) (hP : SetP it) :
    SetP (merge_into row it) := by
  obtain ⟨hg, hn, hi⟩ := hP
  have hset : (merge_into row it).sourceSet = tagUnion it.sourceSet (row_source_tag row) := rfl
  refine ⟨?_, ?_, ?_⟩
  · intro x hx
    rw [hset] at hx
    rcases mem_tagUnion.1 hx with h | h
    · exact hg x h
    · exact row_source_tag_good hp x h
  · rw [hset]; exact nodup_foldl_addTag _ _ hn
  · intro h0
    rw [hset] at h0
    obtain ⟨hsetnil, htagnil⟩ := tagUnion_nil_parts h0
    have hrow0 : clean_text row.Source = "" := row_source_tag_nil htagnil
    have htokrow : source_token_set row.Source = [] := source_token_set_of_clean_empty hrow0
    have hproj : (merge_into row it).row.Source = (merge_result_rows it.row row).Source := rfl
    rcases hi hsetnil with hclean | hunk
    · right
      rw [hproj, merge_result_rows_Source, source_token_set_of_clean_empty hclean, htokrow,
        show tagUnion ([] : List String) [] = [] from rfl,
        if_neg (fun hx => hx rfl), if_neg (fun hx => hx hclean)]
    · right
      rw [hproj, merge_result_rows_Source, hunk, source_token_set_unknown, htokrow,
        show tagUnion ["Unknown"] ([] : List String) = ["Unknown"] from rfl,
        if_pos (by simp)]
      exact joined_sources_unknown

theorem exact_step_SetP {m : List (String × DedupItem)} (idx : Nat) (row : Row)
    (hm : ∀ p ∈ m, SetP p.2) (hp : '|' ∉ (clean_text row.Source).data) :
    ∀ p ∈ exact_step m idx row, SetP p.2 := by
  intro p hpmem
  unfold exact_step at hpmem
  by_cases hk : has_key (dedup_key row idx) m = true
  · rw [if_pos hk] at hpmem
    rcases mem_update_assoc hpmem with hpmem | ⟨it, hit, rfl⟩
    · exact hm p hpmem
    · exact merge_into_SetP row it hp (hm _ hit)
  · rw [if_neg hk] at hpmem
    rcases List.mem_append.1 hpmem with hpmem | hpmem
    · exact hm p hpmem
    · rcases List.mem_singleton.1 hpmem with rfl
      exact new_item_SetP row hp

theorem exact_pass_from_SetP (results : List Row) :
    ∀ (idx : Nat) (m : List (String × DedupItem)),
      (∀ p ∈ m, SetP p.2) →
      (∀ r ∈ results, '|' ∉ (clean_text r.Source).data) →
      ∀ p ∈ exact_pass_from idx m results, SetP p.2 := by
  induction results with
  | nil => intro idx m hm _ p hpmem; exact hm p hpmem
  | cons row rest ih =>
    intro idx m hm hres p hpmem
    exact ih (idx + 1) (exact_step m idx row)
      (exact_step_SetP idx row hm (hres row (List.mem_cons_self _ _)))
      (fun r hr => hres r (List.mem_cons_of_mem _ hr)) p hpmem

theorem finalize_SrcInv {it : DedupItem} (hP : SetP it) :
    SrcInv (finalize_item it).row := by
  obtain ⟨hg, hn, hi⟩ := hP
  simp only [finalize_item]
  split_ifs with hs hsrc
  · refine ⟨stableSort pyStrLt it.sourceSet, ?_, ?_, hs, ?_, rfl, rfl⟩
    · intro t ht; exact hg t (mem_stableSort.1 ht)
    · exact ((stableSort_perm pyStrLt _).nodup_iff).2 hn
    · exact pairwise_stableSort _ _ pyStrLt_asym pyStrLt_negtrans
  · have hs' : stableSort pyStrLt it.sourceSet = [] := by simpa using hs
    have hset : it.sourceSet = [] := by
      have hperm := stableSort_perm pyStrLt it.sourceSet
      rw [hs'] at hperm
      exact hperm.symm.eq_nil
    rcases hi hset with hclean | hunk
    · exact absurd hclean hsrc
    · refine ⟨["Unknown"], fun t ht => ?_, by simp, by simp, by simp, ?_, rfl⟩
      · rcases List.mem_singleton.1 ht with rfl; exact good_unknown
      · show clean_text it.row.Source = _
        rw [hunk]
        decide
  · refine ⟨["Unknown"], fun t ht => ?_, by simp, by simp, by simp, ?_, rfl⟩
    · rcases List.mem_singleton.1 ht with rfl; exact good_unknown
    · show ("Unknown" : String) = _
      decide

theorem fuzzy_insert_SrcInv (rd : String) (rt : Finset String) (thr : ℚ)
    (rc : DedupItem) (hrc : SrcInv rc.row) :
    ∀ refined : List DedupItem, (∀ it ∈ refined, SrcInv it.row) →
      ∀ it ∈ fuzzy_insert rd rt thr rc refined, SrcInv it.row := by
  intro refined
  induction refined with
  | nil =>
    intro _ it hit
    rcases List.mem_singleton.1 hit with rfl
    exact hrc
  | cons existing rest ih =>
    intro hall it hit
    unfold fuzzy_insert at hit
    split_ifs at hit
    · rcases List.mem_cons.1 hit with rfl | hit
      · exact merge_SrcInv (hall existing (List.mem_cons_self _ _)) hrc
      · exact hall it (List.mem_cons_of_mem _ hit)
    · rcases List.mem_cons.1 hit with rfl | hit
      · exact hall it (List.mem_cons_self _ _)
      · exact ih (fun j hj => hall j (List.mem_cons_of_mem _ hj)) it hit

theorem fuzzy_pass_SrcInv (thr : ℚ) :
    ∀ (queue refined : List DedupItem),
      (∀ it ∈ refined, SrcInv it.row) → (∀ it ∈ queue, SrcInv it.row) →
      ∀ it ∈ fuzzy_pass thr refined queue, SrcInv it.row := by
  intro queue
  induction queue with
  | nil => intro refined hr _ it hit; exact hr it hit
  | cons rc rest ih =>
    intro refined hr hq it hit
    unfold fuzzy_pass at hit
    exact ih _
      (fuzzy_insert_SrcInv _ _ thr rc (hq rc (List.mem_cons_self _ _)) refined hr)
      (fun j hj => hq j (List.mem_cons_of_mem _ hj)) it hit

theorem dedup_SrcInv (results : List Row) (fuzzy_title : Bool) (thr : ℚ)
    (hpipe : ∀ r ∈ results, '|' ∉ (clean_text r.Source).data) :
    ∀ row ∈ deduplicate_results results fuzzy_title thr, SrcInv row := by
  have hout : ∀ it ∈ (exact_pass results).map (fun p => finalize_item p.2),
      SrcInv it.row := by
    intro it hit
    rcases List.mem_map.1 hit with ⟨p, hpmem, rfl⟩
    exact finalize_SrcInv (exact_pass_from_SetP results 0 []
      (fun q hq => absurd hq (List.not_mem_nil q)) hpipe p hpmem)
  have hitems : ∀ it ∈ deduplicate_items results fuzzy_title thr, SrcInv it.row := by
    unfold deduplicate_items
    cases fuzzy_title with
    | false => exact hout
    | true =>
      exact fuzzy_pass_SrcInv thr _ [] (fun j hj => absurd hj (List.not_mem_nil j)) hout
  intro row hrow
  rcases List.mem_map.1 hrow with ⟨it, hit, rfl⟩
  exact hitems it hit

/-- Claim C8 counterexample: with a source tag containing the `"|"`
separator, re-merging a deduplicated record with an identical copy of
itself re-splits the tag and changes both `Source` and `SourceCount`. -/
theorem C8_counterexample :
    deduplicate_results [{ Source := "A|B", Title := "Foo" }] false 0 =
      [{ Source := "A|B", Title := "Foo", SourceCount := 1 }] ∧
    merge_result_rows { Source := "A|B", Title := "Foo", SourceCount := 1 }
        { Source := "A|B", Title := "Foo", SourceCount := 1 } ≠
      { Source := "A|B", Title := "Foo", SourceCount := 1 } := by decide

/-- Claim C8 (amended): provided no input record's cleaned `Source` tag
contains the `"|"` separator, merging is idempotent — merging any record
produced by `deduplicate_results` with an identical copy of itself leaves
every field unchanged, in particular the source set and `SourceCount`. -/
theorem C8_merge_idempotent (results : List Row) (fuzzy_title : Bool) (thr : ℚ)
    (hpipe : ∀ r ∈ results, '|' ∉ (clean_text r.Source).data) :
    ∀ row ∈ deduplicate_results results fuzzy_title thr,
      merge_result_rows row row = row := fun row hrow =>
  merge_self_of_SrcInv (dedup_SrcInv results fuzzy_title thr hpipe row hrow)

/-- Witness for C8 at a concrete pipe-free input. -/
theorem C8_merge_idempotent_witness :
    merge_result_rows { Source := "ArXiv", Title := "Foo", SourceCount := 1 }
        { Source := "ArXiv", Title := "Foo", SourceCount := 1 } =
      { Source := "ArXiv", Title := "Foo", SourceCount := 1 } :=
  C8_merge_idempotent [{ Source := "ArXiv", Title := "Foo" }] false 0 (by decide)
    { Source := "ArXiv", Title := "Foo", SourceCount := 1 } (by decide)

/-! ### The relevance sort order is a strict weak order -/

theorem rel_precedes_asym (x y : ScoredRow) (h : rel_precedes x y = true) :
    rel_precedes y x = false := by
  simp only [rel_precedes, Bool.or_eq_true, Bool.and_eq_true, decide_eq_true_eq] at h
  apply Bool.eq_false_iff.2
  intro h2
  simp only [rel_precedes, Bool.or_eq_true, Bool.and_eq_true, decide_eq_true_eq] at h2
  rcases h with h | ⟨he, hc⟩ <;> rcases h2 with h2 | ⟨he2, hc2⟩
  · exact absurd h2 (lt_asymm h)
  · exact absurd he2 (ne_of_lt h)
  · exact absurd (he ▸ h2) (lt_irrefl _)
  · exact absurd hc2 (lt_asymm hc)

theorem rel_precedes_negtrans (x y z : ScoredRow) (h : rel_precedes z x = true) :
    rel_precedes z y = true ∨ rel_precedes y x = true := by
  simp only [rel_precedes, Bool.or_eq_true, Bool.and_eq_true, decide_eq_true_eq] at h ⊢
  rcases h with h | ⟨he, hc⟩
  · by_cases hy : y.Score < z.Score
    · exact Or.inl (Or.inl hy)
    · exact Or.inr (Or.inl (lt_of_lt_of_le h (le_of_not_lt hy)))
  · by_cases h1 : y.Score < z.Score
    · exact Or.inl (Or.inl h1)
    · by_cases h2 : x.Score < y.Score
      · exact Or.inr (Or.inl h2)
      · have hzy : z.Score ≤ y.Score := le_of_not_lt h1
        have hyx : y.Score ≤ x.Score := le_of_not_lt h2
        have heq : y.Score = x.Score := le_antisymm hyx (he ▸ hzy)
        by_cases hcy : y.r.Cites < z.r.Cites
        · exact Or.inl (Or.inr ⟨he.trans heq.symm, hcy⟩)
        · exact Or.inr (Or.inr ⟨heq, lt_of_lt_of_le hc (le_of_not_lt hcy)⟩)

/-- Claim C1 counterexample: `apply_sort` in `relevance` mode sorts only by
score and citations; a pair with identical score and citations keeps its
input order, so the record with the lexicographically larger title can
stay first. -/
theorem C1_counterexample :
    apply_sort
        [{ r := { Title := "b", Cites := 3 }, Score := 1 },
         { r := { Title := "a", Cites := 3 }, Score := 1 }] "Relevance score" =
      [{ r := { Title := "b", Cites := 3 }, Score := 1 },
       { r := { Title := "a", Cites := 3 }, Score := 1 }] ∧
    pyStrLt "a" "b" = true := by decide

/-- Claim C1 (amended): `relevance` mode is a stable multi-key sort by
score descending then citations descending; there is no title tie-break —
records with identical score and citations keep their input order. -/
theorem C1_relevance_sort_stable (df : List ScoredRow) :
    List.Perm (apply_sort df "Relevance score") df ∧
    (apply_sort df "Relevance score").Pairwise (fun a b => rel_precedes b a = false) ∧
    ∀ (s : ℚ) (c : Int),
      (apply_sort df "Relevance score").filter
          (fun x => decide (x.Score = s) && decide (x.r.Cites = c)) =
        df.filter (fun x => decide (x.Score = s) && decide (x.r.Cites = c)) := by
  have happ : apply_sort df "Relevance score" = stableSort rel_precedes df := by
    unfold apply_sort; rw [if_pos rfl]
  rw [happ]
  refine ⟨stableSort_perm _ _,
    pairwise_stableSort _ _ rel_precedes_asym rel_precedes_negtrans, fun s c => ?_⟩
  apply filter_stableSort
  intro a b ha hb
  simp only [Bool.and_eq_true, decide_eq_true_eq] at ha hb
  apply Bool.eq_false_iff.2
  intro h
  simp only [rel_precedes, Bool.or_eq_true, Bool.and_eq_true, decide_eq_true_eq] at h
  rcases h with h | ⟨_, hcite⟩
  · rw [ha.1, hb.1] at h; exact lt_irrefl _ h
  · rw [ha.2, hb.2] at hcite; exact lt_irrefl _ hcite

/-- Claim C2 counterexample: a source whose fetch fails is recorded with
result count zero but with EMPTY error text and status `"OK"` — the error
is swallowed inside the per-source search routine. -/
theorem C2_counterexample :
    (search_all_sources ["ArXiv"] (fun _ => TaskOutcome.ok FetchOutcome.failed 1)
        false).2.1 =
      [{ source := "ArXiv", result_count := 0, duration_sec := 1, error := "",
         status := "OK" }] := by decide

/-- Claim C2 (amended): a failed fetch is caught inside the per-source
search routine, which returns no rows; the orchestrator records a
SourceStat for that source with result count zero, empty error text and
status `"OK"`, and the failure never prevents any other task's fetched
rows from being collected. -/
theorem C2_failed_source_stats (tasks : List (String × TaskOutcome)) (progress : Bool) :
    (∀ src d, (src, TaskOutcome.ok FetchOutcome.failed d) ∈ tasks →
      ({ source := src, result_count := 0, duration_sec := d, error := "",
         status := "OK" } : SourceStat) ∈ (search_all_sources_tasks tasks progress).2.1) ∧
    (∀ src rows d, (src, TaskOutcome.ok (FetchOutcome.fetched rows) d) ∈ tasks →
      rows.Sublist (search_all_sources_tasks tasks progress).1) := by
  constructor
  · intro src d hmem
    have hne : ¬ tasks.length = 0 := by
      intro h0
      rw [List.length_eq_zero] at h0
      rw [h0] at hmem
      cases hmem
    unfold search_all_sources_tasks
    rw [if_neg hne]
    dsimp only
    rw [mem_stableSort]
    exact (show task_stat (src, TaskOutcome.ok FetchOutcome.failed d) =
        { source := src, result_count := 0, duration_sec := d, error := "",
          status := "OK" } from rfl) ▸ List.mem_map_of_mem _ hmem
  · intro src rows d hmem
    have hne : ¬ tasks.length = 0 := by
      intro h0
      rw [List.length_eq_zero] at h0
      rw [h0] at hmem
      cases hmem
    unfold search_all_sources_tasks
    rw [if_neg hne]
    dsimp only
    exact (show task_rows (src, TaskOutcome.ok (FetchOutcome.fetched rows) d) = rows
      from rfl) ▸ sublist_flatten_of_mem (List.mem_map_of_mem _ hmem)

/-- Witness for C2 at a concrete mixed task list. -/
theorem C2_failed_source_stats_witness :
    ({ source := "ArXiv", result_count := 0, duration_sec := 1, error := "",
       status := "OK" } : SourceStat) ∈
      (search_all_sources_tasks
        [("ArXiv", TaskOutcome.ok FetchOutcome.failed 1),
         ("OpenAlex", TaskOutcome.ok (FetchOutcome.fetched [{ Title := "t" }]) 2)]
        false).2.1 ∧
    [({ Title := "t" } : Row)].Sublist
      (search_all_sources_tasks
        [("ArXiv", TaskOutcome.ok FetchOutcome.failed 1),
         ("OpenAlex", TaskOutcome.ok (FetchOutcome.fetched [{ Title := "t" }]) 2)]
        false).1 :=
  ⟨(C2_failed_source_stats
      [("ArXiv", TaskOutcome.ok FetchOutcome.failed 1),
       ("OpenAlex", TaskOutcome.ok (FetchOutcome.fetched [{ Title := "t" }]) 2)]
      false).1 "ArXiv" 1 (by decide),
   (C2_failed_source_stats
      [("ArXiv", TaskOutcome.ok FetchOutcome.failed 1),
       ("OpenAlex", TaskOutcome.ok (FetchOutcome.fetched [{ Title := "t" }]) 2)]
      false).2 "OpenAlex" [{ Title := "t" }] 2 (by decide)⟩

end AcademicSearch

